import Mathlib

/-!
Verification development for the obsvec repository: a semantic note index
built from a markdown chunker, an incremental indexer with batched
embedding, a debounced file watcher, and a vector-search + rerank
retrieval pipeline.

Each definition is a shallow embedding of the corresponding Go function
(file and function named in its doc comment).  Machine integers are
modelled as `Int`/`Nat`; Go `float64` scores and distances are modelled
as `ℚ`; fallible operations return `Option`, with `none` standing for a
Go runtime panic (out-of-range slice access) where so noted.
-/

namespace Obsvec

/-! ## Character-level string helpers (Go `strings` package semantics) -/

/-- Whitespace as recognised by Go `unicode.IsSpace` (ASCII part plus the
Latin-1 and Unicode space characters); used by `strings.TrimSpace`. -/
def goIsSpace (c : Char) : Bool :=
  c = ' ' || c = '\t' || c = '\n' || c = '\x0b' || c = '\x0c' || c = '\r' ||
  c = '\x85' || c = '\xa0' ||
  c = ' ' || (' ' ≤ c && c ≤ ' ') ||
  c = ' ' || c = ' ' || c = ' ' || c = ' ' || c = '　'

/-- Go `strings.TrimSpace` over a character list. -/
def goTrim (l : List Char) : List Char :=
  ((l.dropWhile goIsSpace).reverse.dropWhile goIsSpace).reverse

/-- Byte length of a character list when UTF-8 encoded: Go `len(string)`
and `strings.Builder.Len`. -/
def byteSize (l : List Char) : Nat :=
  l.foldl (fun n c => n + c.utf8Size) 0

/-- Split a character list at every occurrence of `sep`, keeping empty
segments: Go `strings.Split(s, string(sep))`.  The empty input yields one
empty segment, as in Go. -/
def splitOnChar (sep : Char) : List Char → List (List Char)
  | [] => [[]]
  | c :: rest =>
    if c = sep then
      [] :: splitOnChar sep rest
    else
      match splitOnChar sep rest with
      | l :: ls => (c :: l) :: ls
      | [] => [[c]]

/-- Go `strings.Join(parts, " > ")` for the heading breadcrumb. -/
def joinBreadcrumb : List String → String
  | [] => ""
  | [s] => s
  | s :: rest => s ++ " > " ++ joinBreadcrumb rest

/-! ## Chunker (`internal/indexer/indexer.go`, `chunkMarkdown`) -/

/-- Constant `maxChunkTokens` from `internal/indexer/indexer.go`. -/
def maxChunkTokens : Nat := 500

/-- Constant `avgCharsPerToken` from `internal/indexer/indexer.go`. -/
def avgCharsPerToken : Nat := 4

/-- Constant `batchSize` from `internal/indexer/indexer.go`. -/
def batchSize : Nat := 96

/-- Character class `\s` of Go's regexp package (RE2 default): exactly
`[\t\n\f\r ]`. -/
def isRegexSpace (c : Char) : Bool :=
  c = '\t' || c = '\n' || c = '\x0c' || c = '\r' || c = ' '

/-- Matching of `headingRegex = ^(#{1,6})\s+(.+)$` against one line,
returning the heading level (`len(match[1])`) and the heading text
(`match[2]`).  The leading `#` run must have length 1–6 and be followed
by at least one `\s` character; the greedy `\s+` then yields everything
after the whitespace run as `match[2]`, backtracking one character when
the rest of the line is all whitespace (since `.+` needs one character,
and `.` also matches a space). -/
def parseHeading (line : List Char) : Option (Nat × List Char) :=
  let hashes := line.takeWhile (· = '#')
  let rest := line.dropWhile (· = '#')
  let level := hashes.length
  if 1 ≤ level ∧ level ≤ 6 then
    match rest with
    | [] => none
    | c :: _ =>
      if isRegexSpace c then
        let tail := rest.dropWhile isRegexSpace
        if tail.isEmpty then
          -- the whole rest is `\s`; `.+` captures the final character
          -- provided `\s+` still gets at least one
          if 2 ≤ rest.length then some (level, rest.drop (rest.length - 1))
          else none
        else some (level, tail)
      else none
  else none

/-- Structure `indexer.Chunk` (`internal/indexer/indexer.go`). -/
structure Chunk where
  content : String
  startLine : Nat
  endLine : Nat
  heading : String
  deriving Repr, DecidableEq

/-- The local state of `chunkMarkdown`'s scan loop: produced chunks, the
`strings.Builder` buffer, `currentHeading`, `headingStack`, `startLine`
and `currentLine`. -/
structure ChunkState where
  chunks : List Chunk
  buf : List Char
  currentHeading : String
  headingStack : List String
  startLine : Nat
  currentLine : Nat
  deriving Repr, DecidableEq

/-- Initial state of the `chunkMarkdown` loop. -/
def initChunkState : ChunkState :=
  ⟨[], [], "", [], 1, 1⟩

/-- The `flushChunk` closure of `chunkMarkdown`: keep the trimmed buffer
as a chunk when it is nonempty and longer than 20 bytes, then reset the
buffer and move `startLine` to `currentLine`. -/
def flushChunk (st : ChunkState) : ChunkState :=
  let text := goTrim st.buf
  let chunks :=
    if text ≠ [] ∧ 20 < byteSize text then
      st.chunks ++ [⟨⟨text⟩, st.startLine, st.currentLine - 1, st.currentHeading⟩]
    else st.chunks
  { st with chunks := chunks, buf := [], startLine := st.currentLine }

/-- Heading handling at the top of the `chunkMarkdown` loop body: on a
heading line, flush the buffer (with the heading active *before* this
line), pop the stack while `len(stack) ≥ level` — i.e. keep the first
`level - 1` entries — push the new heading text, recompute the
breadcrumb, and reset `startLine`; otherwise do nothing. -/
def chunkHeadingStep (st : ChunkState) (line : List Char) : ChunkState :=
  match parseHeading line with
  | some (level, text) =>
    let st := flushChunk st
    let stack := st.headingStack.take (level - 1) ++ [(⟨text⟩ : String)]
    { st with headingStack := stack,
              currentHeading := joinBreadcrumb stack,
              startLine := st.currentLine }
  | none => st

/-- Model of `currentChunk.WriteString(line); currentChunk.WriteString("\n")`. -/
def chunkAppend (st : ChunkState) (line : List Char) : ChunkState :=
  { st with buf := st.buf ++ line ++ ['\n'] }

/-- Flush when the buffer exceeds `maxChunkTokens * avgCharsPerToken`
bytes. -/
def chunkSizeFlush (st : ChunkState) : ChunkState :=
  if maxChunkTokens * avgCharsPerToken < byteSize st.buf then flushChunk st
  else st

/-- One iteration of the `chunkMarkdown` loop body on a single line:
heading handling, buffer append, size-triggered flush, and the
`currentLine++` at the bottom of the loop. -/
def chunkLine (st : ChunkState) (line : List Char) : ChunkState :=
  let st := chunkSizeFlush (chunkAppend (chunkHeadingStep st line) line)
  { st with currentLine := st.currentLine + 1 }

/-- Model of `chunkMarkdown` (`internal/indexer/indexer.go`): split on newlines,
scan the lines, flush once more at end of input. -/
def chunkMarkdown (content : String) : List Chunk :=
  (flushChunk ((splitOnChar '\n' content.data).foldl chunkLine initChunkState)).chunks

/-- Invariant of the `chunkMarkdown` scan state: `startLine` is 1-based
and never ahead of `currentLine`, produced chunks have strictly
increasing line ranges (each start strictly after the previous end),
each chunk spans at most one line before its recorded end, and all
recorded ends lie strictly before the current buffer start. -/
def chunkInv (st : ChunkState) : Prop :=
  1 ≤ st.startLine ∧ st.startLine ≤ st.currentLine ∧
  List.Chain' (fun a b => a.endLine < b.startLine) st.chunks ∧
  ∀ c ∈ st.chunks,
    c.startLine ≤ c.endLine + 1 ∧ 1 ≤ c.startLine ∧ c.endLine < st.startLine

/-! ## Ghost-instrumented chunker

The same scan as `chunkMarkdown`, additionally recording for every chunk
the first and last line whose text was actually appended to its buffer
and whether its flush was triggered by the size budget.  The ghost
fields exist only to state line-number properties; `ichunkErase` removes
them and `ichunkMarkdown_erase` (below) proves the instrumented scan
agrees with `chunkMarkdown`. -/

/-- A chunk with ghost fields: `firstLine`/`lastLine` are the first and
last source lines appended to the producing buffer, `bySize` is true
when the flush was triggered by the size budget rather than a heading
or end of input. -/
structure IChunk where
  content : String
  startLine : Nat
  endLine : Nat
  heading : String
  firstLine : Nat
  lastLine : Nat
  bySize : Bool
  deriving Repr, DecidableEq

/-- State `ChunkState` plus ghost fields: the first/last line appended to the
current buffer (`none` while the buffer is empty). -/
structure IChunkState where
  chunks : List IChunk
  buf : List Char
  currentHeading : String
  headingStack : List String
  startLine : Nat
  currentLine : Nat
  ghostFirst : Option Nat
  ghostLast : Option Nat
  deriving Repr, DecidableEq

/-- Initial instrumented state. -/
def initIChunkState : IChunkState :=
  ⟨[], [], "", [], 1, 1, none, none⟩

/-- Instrumented `flushChunk`; `bySize` tags the flush's trigger. -/
def iflushChunk (bySize : Bool) (st : IChunkState) : IChunkState :=
  let text := goTrim st.buf
  let chunks :=
    if text ≠ [] ∧ 20 < byteSize text then
      st.chunks ++ [⟨⟨text⟩, st.startLine, st.currentLine - 1, st.currentHeading,
        st.ghostFirst.getD 0, st.ghostLast.getD 0, bySize⟩]
    else st.chunks
  { st with chunks := chunks, buf := [], startLine := st.currentLine,
            ghostFirst := none, ghostLast := none }

/-- Instrumented heading step, mirroring `chunkHeadingStep`. -/
def ichunkHeadingStep (st : IChunkState) (line : List Char) : IChunkState :=
  match parseHeading line with
  | some (level, text) =>
    let st := iflushChunk false st
    let stack := st.headingStack.take (level - 1) ++ [(⟨text⟩ : String)]
    { st with headingStack := stack,
              currentHeading := joinBreadcrumb stack,
              startLine := st.currentLine }
  | none => st

/-- Instrumented buffer append: additionally records the appended line
in the ghost fields. -/
def ichunkAppend (st : IChunkState) (line : List Char) : IChunkState :=
  { st with buf := st.buf ++ line ++ ['\n'],
            ghostFirst := some (st.ghostFirst.getD st.currentLine),
            ghostLast := some st.currentLine }

/-- Instrumented size-triggered flush. -/
def ichunkSizeFlush (st : IChunkState) : IChunkState :=
  if maxChunkTokens * avgCharsPerToken < byteSize st.buf then iflushChunk true st
  else st

/-- Instrumented loop body, mirroring `chunkLine`. -/
def ichunkLine (st : IChunkState) (line : List Char) : IChunkState :=
  let st := ichunkSizeFlush (ichunkAppend (ichunkHeadingStep st line) line)
  { st with currentLine := st.currentLine + 1 }

/-- Instrumented `chunkMarkdown`. -/
def ichunkMarkdown (content : String) : List IChunk :=
  (iflushChunk false ((splitOnChar '\n' content.data).foldl ichunkLine initIChunkState)).chunks

/-- Drop the ghost fields. -/
def ichunkErase (c : IChunk) : Chunk :=
  ⟨c.content, c.startLine, c.endLine, c.heading⟩

/-- Drop the ghost fields of a state. -/
def istateErase (st : IChunkState) : ChunkState :=
  ⟨st.chunks.map ichunkErase, st.buf, st.currentHeading, st.headingStack,
    st.startLine, st.currentLine⟩

/-- Relation between a produced chunk's recorded line numbers and the
ghost-recorded first/last appended lines: starts are 1-based; a heading
or end-of-input flush records the last appended line as `endLine`, a
size-budget flush records one less; the recorded start is the first
appended line or (directly after a size flush) one less. -/
def iChunkGood (c : IChunk) : Prop :=
  1 ≤ c.startLine ∧
  (c.bySize = false → c.endLine = c.lastLine) ∧
  (c.bySize = true → c.endLine + 1 = c.lastLine) ∧
  (c.startLine = c.firstLine ∨ c.startLine + 1 = c.firstLine)

/-- Invariant of the instrumented scan state at line boundaries (before
each loop iteration and after the loop): the ghost fields are `none`
exactly while the buffer is empty, the last appended line is the one
before `currentLine`, and the recorded buffer start is the first
appended line or one past it (the latter directly after a size flush). -/
structure ichunkInv (st : IChunkState) : Prop where
  start_pos : 1 ≤ st.startLine
  start_le : st.startLine ≤ st.currentLine
  first_none : st.ghostFirst = none →
    st.buf = [] ∧ (st.startLine = st.currentLine ∨ st.startLine + 1 = st.currentLine)
  first_some : ∀ g, st.ghostFirst = some g →
    st.buf ≠ [] ∧ (st.startLine = g ∨ st.startLine + 1 = g)
  last_none : st.ghostLast = none → st.buf = []
  last_some : ∀ l, st.ghostLast = some l → st.buf ≠ [] ∧ l + 1 = st.currentLine
  chunks_good : ∀ c ∈ st.chunks, iChunkGood c

/-- Invariant of the instrumented scan state in the middle of a loop
iteration, right after the current line was appended to the buffer. -/
structure ichunkMid (st : IChunkState) : Prop where
  start_pos : 1 ≤ st.startLine
  start_le : st.startLine ≤ st.currentLine
  first_some : ∃ g, st.ghostFirst = some g ∧ (st.startLine = g ∨ st.startLine + 1 = g)
  last_cur : st.ghostLast = some st.currentLine
  buf_ne : st.buf ≠ []
  chunks_good : ∀ c ∈ st.chunks, iChunkGood c

/-! ## Retrieval / rerank pipeline (`search` package, `Search`) -/

/-- A vector-search candidate: `db.ChunkWithScore` as returned by
`SearchSimilar` (`internal/db`), carrying the chunk row, the owning
document's path and the vector-search distance. -/
structure Candidate where
  id : Int
  docId : Int
  content : String
  startLine : Int
  endLine : Int
  heading : String
  distance : ℚ
  path : String
  deriving Repr, DecidableEq

instance : Inhabited Candidate := ⟨⟨0, 0, "", 0, 0, "", 0, ""⟩⟩

/-- Structure `cohere.RerankResult`: zero-based index into the submitted document
list plus the relevance score. -/
structure RerankResult where
  index : Int
  score : ℚ
  deriving Repr, DecidableEq

instance : Inhabited RerankResult := ⟨⟨0, 0⟩⟩

/-- Structure `search.Result`. -/
structure SearchResult where
  rank : Nat
  score : ℚ
  path : String
  heading : String
  content : String
  startLine : Int
  endLine : Int
  docId : Int
  chunkId : Int
  deriving Repr, DecidableEq

instance : Inhabited SearchResult := ⟨⟨0, 0, "", "", "", 0, 0, 0, 0⟩⟩

/-- Go slice indexing `candidates[idx]` with an `int` index, as an
`Option`: `none` models the runtime panic on an out-of-range access. -/
def getCand (cands : List Candidate) (idx : Int) : Option Candidate :=
  if h : 0 ≤ idx ∧ idx.toNat < cands.length then
    some (cands.get ⟨idx.toNat, h.2⟩)
  else none

/-- Building `results[i]` in `Search`: rank is the 1-based position in
the reranked order, score is the rerank relevance score, and the
remaining fields are copied from the candidate. -/
def mkResult (i : Nat) (rr : RerankResult) (c : Candidate) : SearchResult :=
  ⟨i + 1, rr.score, c.path, c.heading, c.content, c.startLine, c.endLine,
    c.docId, c.id⟩

/-- The result-building loop of `Search`: for each rerank selection in
order, index the candidate list with the returned index (`none` models
the panic on an out-of-range index). -/
def mapRerank (cands : List Candidate) : List RerankResult → Nat → Option (List SearchResult)
  | [], _ => some []
  | rr :: rest, i =>
    match getCand cands rr.index with
    | none => none
    | some c => (mapRerank cands rest (i + 1)).map (fun rs => mkResult i rr c :: rs)

/-- Outcome of `search.Search`; `panicOOB` models the Go runtime panic
from indexing the candidate slice out of range. -/
inductive SearchOutcome where
  | embedError
  | rerankError
  | panicOOB
  | ok (results : List SearchResult)
  deriving Repr, DecidableEq

/-- Model of `search.Search` (`Search` in the `search` package), shallowly
embedded over its collaborators' outcomes: `qEmbed` is the query
embedding call's outcome, `searchSimilar` the storage similarity search,
and `rerankFn` the rerank provider's outcome on the submitted query and
document list.  Zero candidates return an empty result list without a
rerank call; otherwise each rerank selection is mapped back through the
candidate list. -/
def searchGo (qEmbed : Option (List ℚ)) (searchSimilar : List ℚ → List Candidate)
    (rerankFn : String → List String → Option (List RerankResult))
    (query : String) : SearchOutcome :=
  match qEmbed with
  | none => .embedError
  | some qv =>
    let cands := searchSimilar qv
    if cands.isEmpty then .ok []
    else
      match rerankFn query (cands.map (·.content)) with
      | none => .rerankError
      | some rrs =>
        match mapRerank cands rrs 0 with
        | none => .panicOOB
        | some rs => .ok rs

/-- Replace a candidate's vector-search distance, leaving every other
field alone; used to state that distances never reach the final results. -/
def updDist (g : ℚ → ℚ) (c : Candidate) : Candidate :=
  { c with distance := g c.distance }

/-- The expected result list of `Search`: the `i`-th entry is built from
the candidate at the rerank provider's `i`-th returned index, with rank
`i + 1` and the rerank relevance score. -/
def expectedResults (cands : List Candidate) (rrs : List RerankResult) : List SearchResult :=
  (List.range rrs.length).map (fun j =>
    mkResult j (rrs.getD j default) (cands.getD (rrs.getD j default).index.toNat default))

/-! ## Storage model (`internal/db/db.go`)

The SQLite store is modelled as explicit lists: `documents` (unique
paths enforced by upsert/delete semantics), `chunks` keyed by surrogate
ids, and `embeddings` keyed by chunk id.  Row ids are allocated from
counters, mirroring SQLite integer primary keys. -/

/-- A file in the note tree as the indexer sees it: root-relative path,
modification time (epoch seconds, `os.Stat`) and full content. -/
structure FSFile where
  path : String
  mtime : Int
  content : String
  deriving Repr, DecidableEq

/-- Structure `db.Document`. -/
structure Document where
  id : Int
  path : String
  title : String
  modifiedAt : Int
  indexedAt : Int
  deriving Repr, DecidableEq

/-- A row of the `chunks` table. -/
structure StoredChunk where
  id : Int
  docId : Int
  content : String
  startLine : Nat
  endLine : Nat
  heading : String
  deriving Repr, DecidableEq

/-- The three relations of the store plus id counters. -/
structure Store where
  documents : List Document
  chunks : List StoredChunk
  embeddings : List (Int × List ℚ)
  nextDocId : Int
  nextChunkId : Int
  deriving Repr, DecidableEq

/-- A freshly created store. -/
def emptyStore : Store := ⟨[], [], [], 1, 1⟩

/-- Model of `db.GetDocument` and the `existingByPath` lookup: the document with
the given (unique) path. -/
def findDoc (st : Store) (p : String) : Option Document :=
  st.documents.find? (fun d => d.path = p)

/-- Model of `db.UpsertDocument`: insert or, on path conflict, update title,
`modified_at` and `indexed_at`; returns the row's id. -/
def upsertDocument (st : Store) (p title : String) (modifiedAt indexedAt : Int) :
    Int × Store :=
  match findDoc st p with
  | some d =>
    (d.id, { st with documents := st.documents.map (fun e =>
        if e.path = p then
          { e with title := title, modifiedAt := modifiedAt, indexedAt := indexedAt }
        else e) })
  | none =>
    (st.nextDocId, { st with
        documents := st.documents ++ [⟨st.nextDocId, p, title, modifiedAt, indexedAt⟩],
        nextDocId := st.nextDocId + 1 })

/-- Model of `db.DeleteDocument`: no-op when the path is absent, otherwise delete
the document's embeddings, chunks and finally the document row. -/
def deleteDocumentByPath (st : Store) (p : String) : Store :=
  match findDoc st p with
  | none => st
  | some d =>
    let cids := (st.chunks.filter (fun c => c.docId = d.id)).map (fun c => c.id)
    { st with documents := st.documents.filter (fun e => ¬ e.path = p),
              chunks := st.chunks.filter (fun c => ¬ c.docId = d.id),
              embeddings := st.embeddings.filter (fun e => ¬ cids.contains e.1) }

/-- Model of `db.DeleteChunksForDocument`: delete the embeddings of the
document's chunks, then the chunks. -/
def deleteChunksForDocument (st : Store) (docId : Int) : Store :=
  let cids := (st.chunks.filter (fun c => c.docId = docId)).map (fun c => c.id)
  { st with chunks := st.chunks.filter (fun c => ¬ c.docId = docId),
            embeddings := st.embeddings.filter (fun e => ¬ cids.contains e.1) }

/-- Model of `db.InsertChunk`. -/
def insertChunk (st : Store) (docId : Int) (c : Chunk) : Int × Store :=
  (st.nextChunkId, { st with
      chunks := st.chunks ++
        [⟨st.nextChunkId, docId, c.content, c.startLine, c.endLine, c.heading⟩],
      nextChunkId := st.nextChunkId + 1 })

/-- Model of `db.InsertEmbedding`. -/
def insertEmbedding (st : Store) (chunkId : Int) (v : List ℚ) : Store :=
  { st with embeddings := st.embeddings ++ [(chunkId, v)] }

/-! ## Incremental indexer (`internal/indexer/indexer.go`) -/

/-- Model of `filepath.Base`: the last path component. -/
def baseName (p : String) : String :=
  ⟨(splitOnChar '/' p.data).getLast?.getD []⟩

/-- Model of `strings.TrimSuffix(base, filepath.Ext(base))`: drop the extension
starting at the last dot, if any. -/
def stripExt (s : String) : String :=
  let r := s.data.reverse
  if (r.takeWhile (fun c => ¬ c = '.')).length = r.length then s
  else ⟨(((r.dropWhile (fun c => ¬ c = '.')).drop 1).reverse)⟩

/-- Model of `extractTitle`: the first line whose trimmed text starts with
`"# "` supplies the title (prefix stripped); otherwise the file name
without its extension. -/
def extractTitle (content relPath : String) : String :=
  match (splitOnChar '\n' content.data).find? (fun l =>
      match goTrim l with
      | '#' :: ' ' :: _ => true
      | _ => false) with
  | some l =>
    match goTrim l with
    | '#' :: ' ' :: rest => ⟨rest⟩
    | _ => ""
  | none => stripExt (baseName relPath)

/-- Structure `indexer.pendingChunk`: a stored chunk awaiting embedding. -/
structure Pending where
  chunkId : Int
  content : String
  deriving Repr, DecidableEq

/-- The chunk-persisting loop of `parseFile`: insert each chunk and
collect `{chunk_id, content}` pending units. -/
def persistChunks (st : Store) (docId : Int) (chunks : List Chunk) :
    Store × List Pending :=
  chunks.foldl (fun acc c =>
    let r := insertChunk acc.1 docId c
    (r.2, acc.2 ++ [⟨r.1, c.content⟩])) (st, [])

/-- Model of `indexer.parseFile`: extract the title, upsert the document (new
`modified_at` from the file, `indexed_at` from the clock), delete the
document's existing chunks (and their embeddings), chunk the content and
persist the new chunks. -/
def parseFile (st : Store) (f : FSFile) (now : Int) : Store × List Pending :=
  let title := extractTitle f.content f.path
  let r := upsertDocument st f.path title f.mtime now
  let st2 := deleteChunksForDocument r.2 r.1
  persistChunks st2 r.1 (chunkMarkdown f.content)

/-- Model of `indexer.needsIndexing`: reindex when `full_reindex` is set, or no
prior document exists, or the file's mtime is strictly newer than the
recorded `modified_at`. -/
def needsIndexingB (fullReindex : Bool) (doc : Option Document) (mtime : Int) : Bool :=
  if fullReindex then true
  else
    match doc with
    | none => true
    | some d => decide (d.modifiedAt < mtime)

/-- Outcome of the embedding pass: success, a provider error aborting
the pass, or a runtime panic from reading a missing vector. -/
inductive EmbedResult where
  | ok
  | providerError
  | panic
  deriving Repr, DecidableEq

/-- Partition into batches of `batchSize`, preserving order: the
`pending[i:end]` slicing loop of `embedPending`.  `cur` accumulates the
current batch in reverse, `r` is its remaining capacity. -/
def chunksAux {α : Type} : List α → List α → Nat → List (List α)
  | [], cur, _ => if cur.isEmpty then [] else [cur.reverse]
  | x :: xs, cur, r =>
    if r ≤ 1 then (cur.reverse ++ [x]) :: chunksAux xs [] batchSize
    else chunksAux xs (x :: cur) (r - 1)

/-- The batches submitted by `embedPending`, in order. -/
def batches {α : Type} (l : List α) : List (List α) := chunksAux l [] batchSize

/-- The per-batch insert loop of `embedPending`: the `j`-th vector is
read for every `j` below the batch length; `none` models the runtime
panic when the provider returned fewer vectors than submitted texts. -/
def insertBatch (st : Store) : List Pending → List (List ℚ) → Option Store
  | [], _ => some st
  | _ :: _, [] => none
  | p :: ps, v :: vs => insertBatch (insertEmbedding st p.chunkId v) ps vs

/-- The sequential batch loop of `embedPending`: one provider call per
batch (`provider` is indexed by call number); a provider failure aborts
with no further submissions; committed batches stay committed.  Returns
the outcome, the final store, and the list of submitted text batches. -/
def embedBatches (provider : Nat → List String → Option (List (List ℚ))) :
    List (List Pending) → Store → Nat → EmbedResult × Store × List (List String)
  | [], st, _ => (.ok, st, [])
  | batch :: rest, st, callIdx =>
    let texts := batch.map (fun p => p.content)
    match provider callIdx texts with
    | none => (.providerError, st, [texts])
    | some vecs =>
      match insertBatch st batch vecs with
      | none => (.panic, st, [texts])
      | some st' =>
        let r := embedBatches provider rest st' (callIdx + 1)
        (r.1, r.2.1, texts :: r.2.2)

/-- Model of `indexer.embedPending`. -/
def embedPending (provider : Nat → List String → Option (List (List ℚ)))
    (st : Store) (pending : List Pending) : EmbedResult × Store × List (List String) :=
  embedBatches provider (batches pending) st 0

/-- Model of `cohere.Client.EmbedDocuments`: empty input returns an empty result
without a call; otherwise the provider's vectors are passed through
one-to-one with no check of their number against the submitted texts. -/
def clientEmbedDocuments (texts : List String) (resp : Option (List (List ℚ))) :
    Option (List (List ℚ)) :=
  if texts.isEmpty then some []
  else resp

/-- Result of one `Index` (reconcile) pass: final store, the paths that
were parsed (read + chunked), the pending units, the submitted text
batches, and the embedding outcome. -/
structure IndexOutcome where
  store : Store
  parsed : List String
  pending : List Pending
  calls : List (List String)
  result : EmbedResult
  deriving Repr, DecidableEq

/-- The deletion step of `Index`'s removal loop: delete a previously
indexed document unless its path is still present. -/
def deleteAbsentStep (currentPaths : List String) (acc : Store) (d : Document) : Store :=
  if currentPaths.contains d.path then acc else deleteDocumentByPath acc d.path

/-- The phase-1 step of `Index`: parse one file, appending its pending
units. -/
def parseStep (now : Int) (acc : Store × List Pending) (f : FSFile) :
    Store × List Pending :=
  let r := parseFile acc.1 f now
  (r.1, acc.2 ++ r.2)

/-- Model of `indexer.Index`: enumerate (the `fs` argument stands for
`findMarkdownFiles`' result), delete documents whose paths vanished,
decide `needsIndexing` per present path against the pre-deletion
document map, parse all files needing indexing (phase 1), then batch
embed all pending chunks (phase 2).  Early returns: no file to index,
or no chunk to embed. -/
def indexRun (st : Store) (fs : List FSFile) (fullReindex : Bool) (now : Int)
    (provider : Nat → List String → Option (List (List ℚ))) : IndexOutcome :=
  let st1 := st.documents.foldl (deleteAbsentStep (fs.map (fun f => f.path))) st
  let filesToIndex := fs.filter (fun f =>
      needsIndexingB fullReindex (findDoc st f.path) f.mtime)
  if filesToIndex.isEmpty then ⟨st1, [], [], [], .ok⟩
  else
    let phase1 := filesToIndex.foldl (parseStep now) (st1, [])
    if phase1.2.isEmpty then ⟨phase1.1, filesToIndex.map (fun f => f.path), [], [], .ok⟩
    else
      let r := embedPending provider phase1.1 phase1.2
      ⟨r.2.1, filesToIndex.map (fun f => f.path), phase1.2, r.2.2, r.1⟩

/-! ## File watcher (`watcher.go`, `handleEvent` / `indexPendingFiles`) -/

/-- The `fsnotify.Op` bits tested by `handleEvent`. -/
structure WatchOp where
  create : Bool
  write : Bool
  remove : Bool
  rename : Bool
  deriving Repr, DecidableEq

/-- A pure write event. -/
def writeOp : WatchOp := ⟨false, true, false, false⟩

/-- A pure remove event. -/
def removeOp : WatchOp := ⟨false, false, true, false⟩

/-- Watcher state: the mutex-guarded `pending` map (path → last event
time, one entry per key) and the store mutated by delete events. -/
structure WatchState where
  pending : List (String × Int)
  store : Store
  deriving Repr, DecidableEq

/-- Model of `w.pending[relPath] = time.Now()`: insert or refresh in place. -/
def upsertPending : List (String × Int) → String → Int → List (String × Int)
  | [], p, t => [(p, t)]
  | (q, s) :: rest, p, t =>
    if q = p then (q, t) :: rest else (q, s) :: upsertPending rest p t

/-- Model of `delete(w.pending, relPath)`. -/
def removePending (l : List (String × Int)) (p : String) : List (String × Int) :=
  l.filter (fun e => ¬ e.1 = p)

/-- Lookup `w.pending[relPath]`: the recorded last-event time for a path. -/
def lookupPending (l : List (String × Int)) (p : String) : Option Int :=
  (l.find? (fun e => e.1 = p)).map (fun e => e.2)

/-- Model of `strings.HasSuffix(strings.ToLower(name), ".md")` (ASCII lowering,
which is all `.md` needs). -/
def isMarkdownPath (s : String) : Bool :=
  match (s.data.map Char.toLower).reverse with
  | 'd' :: 'm' :: '.' :: _ => true
  | _ => false

/-- Model of `isHiddenRelPath` (`internal/indexer/filters.go`), also inlined in
`handleEvent`: `strings.HasPrefix(relPath, ".")`. -/
def isHiddenRelPath (relPath : String) : Bool :=
  match relPath.data with
  | '.' :: _ => true
  | _ => false

/-- The spec's notion (stated for comparison, not from the code): the
root-relative path contains a hidden-prefixed component at any depth. -/
def specHiddenAnyDepth (relPath : String) : Bool :=
  (splitOnChar '/' relPath.data).any (fun comp =>
    match comp with
    | '.' :: _ => true
    | _ => false)

/-- Debounce window, in seconds (`debounceDelay = 2 * time.Second`). -/
def debounceDelay : Int := 2

/-- Model of `handleEvent`: ignore non-`.md` names and hidden-prefixed relative
paths; create/write refreshes the pending entry in place, remove/rename
drops the entry and deletes the document.  `relPath` stands for
`filepath.Rel(dir, event.Name)`. -/
def handleEvent (st : WatchState) (relPath : String) (op : WatchOp) (now : Int) :
    WatchState :=
  if ¬ isMarkdownPath relPath then st
  else if isHiddenRelPath relPath then st
  else if op.write || op.create then
    { st with pending := upsertPending st.pending relPath now }
  else if op.remove || op.rename then
    { st with pending := removePending st.pending relPath,
              store := deleteDocumentByPath st.store relPath }
  else st

/-- Model of `indexPendingFiles`' collection step: under the lock, gather the
paths whose last event is at least the debounce window old, remove them
from the pending map, and return them for (out-of-lock) single-file
reindexing — one invocation per returned path. -/
def sweepExpired (st : WatchState) (now : Int) : WatchState × List String :=
  let toIndex := (st.pending.filter (fun e => debounceDelay ≤ now - e.2)).map
    (fun e => e.1)
  ({ st with pending := st.pending.filter (fun e => ¬ toIndex.contains e.1) }, toIndex)

lemma getCand_eq_getD (cands : List Candidate) (idx : Int)
    (h0 : 0 ≤ idx) (hlt : idx.toNat < cands.length) :
    getCand cands idx = some (cands.getD idx.toNat default) := by
  rw [getCand, dif_pos ⟨h0, hlt⟩]
  rw [List.getD_eq_getElem?_getD, List.getElem?_eq_getElem hlt]
  rfl

lemma mapRerank_eq_some (cands : List Candidate) (rrs : List RerankResult) (i : Nat)
    (h : ∀ rr ∈ rrs, 0 ≤ rr.index ∧ rr.index.toNat < cands.length) :
    mapRerank cands rrs i =
      some ((List.range rrs.length).map (fun j =>
        mkResult (i + j) (rrs.getD j default)
          (cands.getD ((rrs.getD j default).index.toNat) default))) := by
  induction rrs generalizing i with
  | nil => simp [mapRerank]
  | cons rr rest ih =>
    obtain ⟨h0, hlt⟩ := h rr (List.mem_cons_self rr rest)
    rw [mapRerank, getCand_eq_getD cands rr.index h0 hlt,
      ih (i + 1) (fun r hr => h r (List.mem_cons_of_mem rr hr))]
    simp only [Option.map_some', List.length_cons, List.range_succ_eq_map,
      List.map_cons, List.map_map]
    congr 1
    rw [List.cons.injEq]
    refine ⟨by simp, ?_⟩
    apply List.map_congr_left
    intro j hj
    simp only [Function.comp_apply, List.getD_cons_succ]
    have harith : i + (j + 1) = i + 1 + j := by omega
    rw [harith]

lemma mapRerank_updDist (g : ℚ → ℚ) (cands : List Candidate)
    (rrs : List RerankResult) (i : Nat) :
    mapRerank (cands.map (updDist g)) rrs i = mapRerank cands rrs i := by
  induction rrs generalizing i with
  | nil => rfl
  | cons rr rest ih =>
    rw [mapRerank, mapRerank, ih (i + 1)]
    have hg : getCand (cands.map (updDist g)) rr.index =
        (getCand cands rr.index).map (updDist g) := by
      unfold getCand
      by_cases h : 0 ≤ rr.index ∧ rr.index.toNat < cands.length
      · rw [dif_pos ⟨h.1, by simpa using h.2⟩, dif_pos h]
        simp
      · rw [dif_neg (by simpa using h), dif_neg h]
        rfl
    rw [hg]
    cases getCand cands rr.index with
    | none => rfl
    | some c =>
      cases mapRerank cands rest (i + 1) with
      | none => rfl
      | some rs => simp [mkResult, updDist]

lemma mapRerank_oob (cands : List Candidate) (rrs : List RerankResult) (i : Nat)
    (h : ∃ rr ∈ rrs, ¬(0 ≤ rr.index ∧ rr.index.toNat < cands.length)) :
    mapRerank cands rrs i = none := by
  induction rrs generalizing i with
  | nil => simp at h
  | cons rr rest ih =>
    rw [mapRerank]
    obtain ⟨r, hr, hoob⟩ := h
    rcases List.mem_cons.mp hr with rfl | hr'
    · rw [getCand, dif_neg hoob]
    · cases hcand : getCand cands rr.index with
      | none => rfl
      | some c => rw [ih (i + 1) ⟨r, hr', hoob⟩]; rfl

end Obsvec

namespace Obsvec

/-! Quick sanity examples (kept as theorems so the file stays plain). -/

theorem chunkMarkdown_empty : chunkMarkdown "" = [] := by decide

theorem chunkMarkdown_example :
    (chunkMarkdown "# A\nsome body text well over twenty characters").map Chunk.heading
      = ["A"] := by decide

theorem chunkMarkdown_goTest_simpleDocument :
    (chunkMarkdown "# Title\n\nThis is the introduction paragraph with some text.\n\n## Section One\n\nContent for section one goes here.\n\n## Section Two\n\nContent for section two goes here.\n").map
      Chunk.heading
      = ["Title", "Title > Section One", "Title > Section Two"] := by decide

theorem chunkMarkdown_goTest_noHeadings :
    (chunkMarkdown "Just some plain text without any headings.\n\nAnother paragraph here.\n").map
      Chunk.heading = [""] := by decide

theorem chunkMarkdown_goTest_minimumLength :
    chunkMarkdown "# Title\n\nHi\n" = [] := by decide

theorem parseHeading_seven_hashes : parseHeading "####### seven".data = none := by decide

theorem parseHeading_no_space : parseHeading "#x".data = none := by decide

theorem chunkMarkdown_lines_example :
    (chunkMarkdown "# Title\n\nThis is the introduction paragraph with some text.\n\n## Section One\n\nContent for section one goes here.\n").map
      (fun c => (c.startLine, c.endLine)) = [(1, 4), (5, 8)] := by decide

/-! ### Chunk-range invariant (towards C4) -/

lemma chunkInv_init : chunkInv initChunkState := by
  refine ⟨le_refl 1, le_refl 1, List.chain'_nil, ?_⟩
  intro c hc
  simp [initChunkState] at hc

lemma chunkInv_flush {st : ChunkState} (h : chunkInv st) : chunkInv (flushChunk st) := by
  obtain ⟨h1, h2, h3, h4⟩ := h
  rw [flushChunk]
  by_cases hk : goTrim st.buf ≠ [] ∧ 20 < byteSize (goTrim st.buf)
  · rw [if_pos hk]
    refine ⟨le_trans h1 h2, le_refl _, ?_, ?_⟩
    · rw [List.chain'_append]
      refine ⟨h3, List.chain'_singleton _, ?_⟩
      intro x hx y hy
      simp only [List.head?_cons, Option.mem_def, Option.some.injEq] at hy
      subst hy
      obtain ⟨hne, hxeq⟩ := List.mem_getLast?_eq_getLast hx
      subst hxeq
      exact (h4 _ (List.getLast_mem hne)).2.2
    · intro c hc
      rcases List.mem_append.mp hc with hold | hnew
      · obtain ⟨ha, hb, hcnd⟩ := h4 c hold
        exact ⟨ha, hb, lt_of_lt_of_le hcnd h2⟩
      · simp only [List.mem_singleton] at hnew
        subst hnew
        have hcur : 1 ≤ st.currentLine := le_trans h1 h2
        refine ⟨?_, h1, ?_⟩
        · simp only
          omega
        · simp only
          omega
  · rw [if_neg hk]
    refine ⟨le_trans h1 h2, le_refl _, h3, ?_⟩
    intro c hc
    obtain ⟨ha, hb, hcnd⟩ := h4 c hc
    exact ⟨ha, hb, lt_of_lt_of_le hcnd h2⟩

lemma chunkInv_headingStep {st : ChunkState} (line : List Char) (h : chunkInv st) :
    chunkInv (chunkHeadingStep st line) := by
  rw [chunkHeadingStep]
  cases hp : parseHeading line with
  | none => exact h
  | some p =>
    obtain ⟨level, text⟩ := p
    obtain ⟨h1, h2, h3, h4⟩ := chunkInv_flush h
    exact ⟨le_trans h1 h2, h2, h3, fun c hc =>
      ⟨(h4 c hc).1, (h4 c hc).2.1, lt_of_lt_of_le (h4 c hc).2.2 h2⟩⟩

lemma chunkInv_append {st : ChunkState} (line : List Char) (h : chunkInv st) :
    chunkInv (chunkAppend st line) := h

lemma chunkInv_sizeFlush {st : ChunkState} (h : chunkInv st) :
    chunkInv (chunkSizeFlush st) := by
  rw [chunkSizeFlush]
  by_cases hc : maxChunkTokens * avgCharsPerToken < byteSize st.buf
  · rw [if_pos hc]; exact chunkInv_flush h
  · rw [if_neg hc]; exact h

lemma chunkInv_bump {st : ChunkState} (h : chunkInv st) :
    chunkInv { st with currentLine := st.currentLine + 1 } :=
  ⟨h.1, le_trans h.2.1 (Nat.le_succ _), h.2.2.1, h.2.2.2⟩

lemma chunkInv_line {st : ChunkState} (line : List Char) (h : chunkInv st) :
    chunkInv (chunkLine st line) :=
  chunkInv_bump (chunkInv_sizeFlush (chunkInv_append line (chunkInv_headingStep line h)))

lemma chunkInv_fold (lines : List (List Char)) (st : ChunkState) (h : chunkInv st) :
    chunkInv (lines.foldl chunkLine st) := by
  induction lines generalizing st with
  | nil => exact h
  | cons l rest ih => exact ih (chunkLine st l) (chunkInv_line l h)

lemma chunkInv_chunkMarkdown (content : String) :
    chunkInv (flushChunk ((splitOnChar '\n' content.data).foldl chunkLine initChunkState)) :=
  chunkInv_flush (chunkInv_fold _ _ chunkInv_init)

/-- Claim C3: on a heading line of level `L` (with the line itself not
busting the size budget), the chunker flushes the current buffer as a
candidate chunk carrying the breadcrumb active before that line
(`flushChunk` uses `st.currentHeading`), pops the heading stack to depth
at most `L - 1`, pushes the new heading text, and sets the breadcrumb to
the stack entries joined by " > "; in particular the heading sequence
`# A / ## B / ### C / ## D` yields chunk breadcrumbs "A > B > C" then
"A > D". -/
theorem C3_heading_stack :
    (∀ (st : ChunkState) (line : List Char) (level : Nat) (text : List Char),
      parseHeading line = some (level, text) →
      byteSize (line ++ ['\n']) ≤ maxChunkTokens * avgCharsPerToken →
      chunkLine st line =
        { chunks := (flushChunk st).chunks,
          buf := line ++ ['\n'],
          currentHeading :=
            joinBreadcrumb (st.headingStack.take (level - 1) ++ [(⟨text⟩ : String)]),
          headingStack := st.headingStack.take (level - 1) ++ [(⟨text⟩ : String)],
          startLine := st.currentLine,
          currentLine := st.currentLine + 1 })
    ∧ (chunkMarkdown
        "# A\n## B\n### C\nsome body text well over twenty chars\n## D\nmore body text well over twenty chars").map
        Chunk.heading = ["A > B > C", "A > D"] := by
  constructor
  · intro st line level text hp hsize
    have hnotlt : ¬ maxChunkTokens * avgCharsPerToken < byteSize (line ++ ['\n']) :=
      not_lt.mpr hsize
    simp [chunkLine, chunkHeadingStep, hp, chunkAppend, chunkSizeFlush, flushChunk,
      hnotlt]
  · decide

/-- Witness for C3: a `## B` line under active heading stack `["A"]`
flushes nothing (empty buffer), pops nothing, pushes `B` and produces
breadcrumb "A > B". -/
theorem C3_heading_stack_witness :
    chunkLine ⟨[], [], "A", ["A"], 1, 1⟩ "## B".data =
      { chunks := [], buf := "## B".data ++ ['\n'],
        currentHeading := "A > B", headingStack := ["A", "B"],
        startLine := 1, currentLine := 2 } := by
  have h := C3_heading_stack.1 ⟨[], [], "A", ["A"], 1, 1⟩ "## B".data 2 "B".data
    (by decide) (by decide)
  rw [h]
  decide

set_option maxRecDepth 40000 in
/-- Claim C4 as stated is false: a single line longer than the size
budget produces a chunk with `start_line = 1 > end_line = 0` (the size
flush records the end one line short). -/
theorem C4_chunk_ranges_cex :
    ¬ (∀ c ∈ chunkMarkdown (String.mk (List.replicate 501 '𝕏')),
        c.startLine ≤ c.endLine) := by
  intro h
  have hmem : (⟨⟨List.replicate 501 '𝕏'⟩, 1, 0, ""⟩ : Chunk)
      ∈ chunkMarkdown (String.mk (List.replicate 501 '𝕏')) := by
    rw [show chunkMarkdown (String.mk (List.replicate 501 '𝕏'))
        = [⟨⟨List.replicate 501 '𝕏'⟩, 1, 0, ""⟩] from by decide]
    exact List.mem_singleton.mpr rfl
  exact absurd (h _ hmem) (by decide)

/-- Claim C4, amended: chunk ranges are still non-overlapping and
ordered — every chunk's `start_line` is strictly greater than the
previous chunk's `end_line` — but within one chunk only
`start_line ≤ end_line + 1` holds (a size-budget flush whose buffer
started at the triggering line records `end_line = start_line - 1`);
`start_line` is always 1-based. -/
theorem C4_chunk_ranges_amended (content : String) :
    List.Chain' (fun a b => a.endLine < b.startLine) (chunkMarkdown content)
    ∧ ∀ c ∈ chunkMarkdown content, c.startLine ≤ c.endLine + 1 ∧ 1 ≤ c.startLine := by
  obtain ⟨-, -, h3, h4⟩ := chunkInv_chunkMarkdown content
  exact ⟨h3, fun c hc => ⟨(h4 c hc).1, (h4 c hc).2.1⟩⟩

/-! ### Ghost-instrumented chunker: invariants and agreement (towards C5) -/

lemma ichunkInv_init : ichunkInv initIChunkState := by
  refine ⟨le_refl 1, le_refl 1, fun _ => ⟨rfl, Or.inl rfl⟩, ?_, fun _ => rfl, ?_, ?_⟩
  · intro g hg; exact Option.noConfusion hg
  · intro l hl; exact Option.noConfusion hl
  · intro c hc; simp [initIChunkState] at hc

lemma ichunkInv_flush_false {st : IChunkState} (h : ichunkInv st) :
    ichunkInv (iflushChunk false st) := by
  rw [iflushChunk]
  by_cases hk : goTrim st.buf ≠ [] ∧ 20 < byteSize (goTrim st.buf)
  · rw [if_pos hk]
    have hbuf : st.buf ≠ [] := by
      intro hb
      exact hk.1 (by rw [hb]; rfl)
    obtain ⟨l, hl⟩ : ∃ l, st.ghostLast = some l := by
      cases hgl : st.ghostLast with
      | none => exact absurd (h.last_none hgl) hbuf
      | some l => exact ⟨l, rfl⟩
    obtain ⟨g, hg⟩ : ∃ g, st.ghostFirst = some g := by
      cases hgf : st.ghostFirst with
      | none => exact absurd (h.first_none hgf).1 hbuf
      | some g => exact ⟨g, rfl⟩
    obtain ⟨-, hlcur⟩ := h.last_some l hl
    obtain ⟨-, hgrel⟩ := h.first_some g hg
    refine ⟨h.start_pos.trans h.start_le, le_refl _, fun _ => ⟨rfl, Or.inl rfl⟩,
      ?_, fun _ => rfl, ?_, ?_⟩
    · intro g' hg'; exact Option.noConfusion hg'
    · intro l' hl'; exact Option.noConfusion hl'
    · intro c hc
      rcases List.mem_append.mp hc with hold | hnew
      · exact h.chunks_good c hold
      · simp only [List.mem_singleton] at hnew
        subst hnew
        refine ⟨h.start_pos, ?_, ?_, ?_⟩
        · intro _
          simp only [hg, hl, Option.getD_some]
          omega
        · intro hfalse
          exact Bool.noConfusion hfalse
        · simp only [hg, Option.getD_some]
          exact hgrel
  · rw [if_neg hk]
    refine ⟨h.start_pos.trans h.start_le, le_refl _, fun _ => ⟨rfl, Or.inl rfl⟩,
      ?_, fun _ => rfl, ?_, h.chunks_good⟩
    · intro g' hg'; exact Option.noConfusion hg'
    · intro l' hl'; exact Option.noConfusion hl'

lemma ichunkInv_headingStep {st : IChunkState} (line : List Char) (h : ichunkInv st) :
    ichunkInv (ichunkHeadingStep st line) := by
  rw [ichunkHeadingStep]
  cases hp : parseHeading line with
  | none => exact h
  | some p =>
    obtain ⟨level, text⟩ := p
    have hf := ichunkInv_flush_false h
    refine ⟨hf.start_pos.trans hf.start_le, le_refl _, fun _ => ⟨rfl, Or.inl rfl⟩,
      ?_, fun _ => rfl, ?_, hf.chunks_good⟩
    · intro g' hg'; exact Option.noConfusion hg'
    · intro l' hl'; exact Option.noConfusion hl'

lemma ichunkMid_append {st : IChunkState} (line : List Char) (h : ichunkInv st) :
    ichunkMid (ichunkAppend st line) := by
  refine ⟨h.start_pos, h.start_le, ?_, rfl, ?_, h.chunks_good⟩
  · cases hgf : st.ghostFirst with
    | none =>
      refine ⟨st.currentLine, ?_, (h.first_none hgf).2⟩
      simp [ichunkAppend, hgf]
    | some g =>
      refine ⟨g, ?_, (h.first_some g hgf).2⟩
      simp [ichunkAppend, hgf]
  · simp [ichunkAppend]

lemma ichunkInv_line {st : IChunkState} (line : List Char) (h : ichunkInv st) :
    ichunkInv (ichunkLine st line) := by
  have hm := ichunkMid_append line (ichunkInv_headingStep line h)
  simp only [ichunkLine]
  obtain ⟨g, hg, hgrel⟩ := hm.first_some
  rw [ichunkSizeFlush]
  by_cases hc : maxChunkTokens * avgCharsPerToken <
      byteSize (ichunkAppend (ichunkHeadingStep st line) line).buf
  · rw [if_pos hc, iflushChunk]
    by_cases hk : goTrim (ichunkAppend (ichunkHeadingStep st line) line).buf ≠ [] ∧
        20 < byteSize (goTrim (ichunkAppend (ichunkHeadingStep st line) line).buf)
    · rw [if_pos hk]
      refine ⟨hm.start_pos.trans hm.start_le, Nat.le_succ _,
        fun _ => ⟨rfl, Or.inr rfl⟩, ?_, fun _ => rfl, ?_, ?_⟩
      · intro g' hg'; exact Option.noConfusion hg'
      · intro l' hl'; exact Option.noConfusion hl'
      · intro c hcm
        rcases List.mem_append.mp hcm with hold | hnew
        · exact hm.chunks_good c hold
        · simp only [List.mem_singleton] at hnew
          subst hnew
          refine ⟨hm.start_pos, ?_, ?_, ?_⟩
          · intro hfalse
            exact Bool.noConfusion hfalse
          · intro _
            simp only [hm.last_cur, Option.getD_some]
            have := hm.start_pos.trans hm.start_le
            omega
          · simp only [hg, Option.getD_some]
            exact hgrel
    · rw [if_neg hk]
      refine ⟨hm.start_pos.trans hm.start_le, Nat.le_succ _,
        fun _ => ⟨rfl, Or.inr rfl⟩, ?_, fun _ => rfl, ?_, hm.chunks_good⟩
      · intro g' hg'; exact Option.noConfusion hg'
      · intro l' hl'; exact Option.noConfusion hl'
  · rw [if_neg hc]
    refine ⟨hm.start_pos, hm.start_le.trans (Nat.le_succ _), ?_, ?_, ?_, ?_,
      hm.chunks_good⟩
    · intro h0
      rw [show ({ ichunkAppend (ichunkHeadingStep st line) line with
          currentLine := (ichunkAppend (ichunkHeadingStep st line) line).currentLine + 1
        } : IChunkState).ghostFirst
        = (ichunkAppend (ichunkHeadingStep st line) line).ghostFirst from rfl, hg] at h0
      exact Option.noConfusion h0
    · intro g' hg'
      rw [show ({ ichunkAppend (ichunkHeadingStep st line) line with
          currentLine := (ichunkAppend (ichunkHeadingStep st line) line).currentLine + 1
        } : IChunkState).ghostFirst
        = (ichunkAppend (ichunkHeadingStep st line) line).ghostFirst from rfl, hg] at hg'
      obtain rfl : g = g' := Option.some.inj hg'
      exact ⟨hm.buf_ne, hgrel⟩
    · intro h0
      rw [show ({ ichunkAppend (ichunkHeadingStep st line) line with
          currentLine := (ichunkAppend (ichunkHeadingStep st line) line).currentLine + 1
        } : IChunkState).ghostLast
        = (ichunkAppend (ichunkHeadingStep st line) line).ghostLast from rfl,
        hm.last_cur] at h0
      exact Option.noConfusion h0
    · intro l' hl'
      rw [show ({ ichunkAppend (ichunkHeadingStep st line) line with
          currentLine := (ichunkAppend (ichunkHeadingStep st line) line).currentLine + 1
        } : IChunkState).ghostLast
        = (ichunkAppend (ichunkHeadingStep st line) line).ghostLast from rfl,
        hm.last_cur] at hl'
      obtain rfl : (ichunkAppend (ichunkHeadingStep st line) line).currentLine = l' :=
        Option.some.inj hl'
      exact ⟨hm.buf_ne, rfl⟩

lemma ichunkInv_fold (lines : List (List Char)) (st : IChunkState) (h : ichunkInv st) :
    ichunkInv (lines.foldl ichunkLine st) := by
  induction lines generalizing st with
  | nil => exact h
  | cons l rest ih => exact ih (ichunkLine st l) (ichunkInv_line l h)

lemma ichunkInv_ichunkMarkdown (content : String) :
    ∀ c ∈ ichunkMarkdown content, iChunkGood c :=
  (ichunkInv_flush_false (ichunkInv_fold _ _ ichunkInv_init)).chunks_good

lemma istateErase_flush (b : Bool) (st : IChunkState) :
    istateErase (iflushChunk b st) = flushChunk (istateErase st) := by
  by_cases hk : goTrim st.buf ≠ [] ∧ 20 < byteSize (goTrim st.buf)
  · simp [iflushChunk, flushChunk, istateErase, ichunkErase, hk]
  · simp [iflushChunk, flushChunk, istateErase, ichunkErase, hk]

lemma istateErase_headingStep (st : IChunkState) (line : List Char) :
    istateErase (ichunkHeadingStep st line) = chunkHeadingStep (istateErase st) line := by
  rw [ichunkHeadingStep, chunkHeadingStep]
  cases hp : parseHeading line with
  | none => rfl
  | some p =>
    obtain ⟨level, text⟩ := p
    have hf := istateErase_flush false st
    calc istateErase { iflushChunk false st with
            headingStack := (iflushChunk false st).headingStack.take (level - 1)
              ++ [(⟨text⟩ : String)],
            currentHeading := joinBreadcrumb ((iflushChunk false st).headingStack.take
              (level - 1) ++ [(⟨text⟩ : String)]),
            startLine := (iflushChunk false st).currentLine }
        = { istateErase (iflushChunk false st) with
            headingStack := (istateErase (iflushChunk false st)).headingStack.take
              (level - 1) ++ [(⟨text⟩ : String)],
            currentHeading := joinBreadcrumb ((istateErase (iflushChunk false st)).headingStack.take
              (level - 1) ++ [(⟨text⟩ : String)]),
            startLine := (istateErase (iflushChunk false st)).currentLine } := rfl
      _ = _ := by rw [hf]

lemma istateErase_append (st : IChunkState) (line : List Char) :
    istateErase (ichunkAppend st line) = chunkAppend (istateErase st) line := rfl

lemma istateErase_sizeFlush (st : IChunkState) :
    istateErase (ichunkSizeFlush st) = chunkSizeFlush (istateErase st) := by
  have hb : (istateErase st).buf = st.buf := rfl
  rw [ichunkSizeFlush, chunkSizeFlush, hb]
  by_cases hc : maxChunkTokens * avgCharsPerToken < byteSize st.buf
  · rw [if_pos hc, if_pos hc, istateErase_flush]
  · rw [if_neg hc, if_neg hc]

lemma istateErase_line (st : IChunkState) (line : List Char) :
    istateErase (ichunkLine st line) = chunkLine (istateErase st) line := by
  simp only [ichunkLine, chunkLine]
  calc istateErase { ichunkSizeFlush (ichunkAppend (ichunkHeadingStep st line) line) with
          currentLine := (ichunkSizeFlush (ichunkAppend (ichunkHeadingStep st line)
            line)).currentLine + 1 }
      = { istateErase (ichunkSizeFlush (ichunkAppend (ichunkHeadingStep st line) line)) with
          currentLine := (istateErase (ichunkSizeFlush (ichunkAppend (ichunkHeadingStep st
            line) line))).currentLine + 1 } := rfl
    _ = _ := by
        rw [istateErase_sizeFlush, istateErase_append, istateErase_headingStep]

lemma istateErase_fold (lines : List (List Char)) (st : IChunkState) :
    istateErase (lines.foldl ichunkLine st) = lines.foldl chunkLine (istateErase st) := by
  induction lines generalizing st with
  | nil => rfl
  | cons l rest ih => rw [List.foldl_cons, List.foldl_cons, ih, istateErase_line]

lemma ichunkMarkdown_erase (content : String) :
    (ichunkMarkdown content).map ichunkErase = chunkMarkdown content := by
  rw [ichunkMarkdown, chunkMarkdown]
  calc ((iflushChunk false ((splitOnChar '\n' content.data).foldl ichunkLine
          initIChunkState)).chunks).map ichunkErase
      = (istateErase (iflushChunk false ((splitOnChar '\n' content.data).foldl ichunkLine
          initIChunkState))).chunks := rfl
    _ = (flushChunk (istateErase ((splitOnChar '\n' content.data).foldl ichunkLine
          initIChunkState))).chunks := by rw [istateErase_flush]
    _ = _ := by rw [istateErase_fold]; rfl

set_option maxRecDepth 40000 in
/-- Claim C5 as stated is false: on a size-budget flush the recorded
`end_line` is one less than the last line whose text was appended (the
triggering line's text is in the chunk content, but `currentLine` has
not yet been advanced when `flushChunk` computes `currentLine - 1`).
Concretely, `"# H"` followed by one line longer than the budget yields a
single chunk whose ghost-recorded last appended line is 2 while its
recorded `end_line` is 1. -/
theorem C5_line_numbers_cex :
    ¬ (∀ c ∈ ichunkMarkdown ("# H\n" ++ String.mk (List.replicate 501 '𝕏')),
        c.endLine = c.lastLine) := by
  intro h
  have hmap : (ichunkMarkdown ("# H\n" ++ String.mk (List.replicate 501 '𝕏'))).map
      (fun c => (c.endLine, c.lastLine)) = [(1, 2)] := by decide
  rcases hm : ichunkMarkdown ("# H\n" ++ String.mk (List.replicate 501 '𝕏')) with - | ⟨c, rest⟩
  · rw [hm] at hmap
    exact List.noConfusion hmap
  · rw [hm] at hmap h
    have hc := h c (List.mem_cons_self c rest)
    have : (c.endLine, c.lastLine) = (1, 2) := by
      have := congrArg List.head? hmap
      simpa using this
    rw [hc] at this
    have h12 : c.lastLine = 1 ∧ c.lastLine = 2 := by
      constructor
      · exact (Prod.mk.injEq _ _ _ _ ▸ this).1
      · exact (Prod.mk.injEq _ _ _ _ ▸ this).2
    omega

/-! ### Watcher pending-map lemmas (towards C7 and C8) -/

lemma lookupPending_upsert_self (l : List (String × Int)) (p : String) (t : Int) :
    lookupPending (upsertPending l p t) p = some t := by
  induction l with
  | nil => simp [upsertPending, lookupPending]
  | cons e rest ih =>
    obtain ⟨q, s⟩ := e
    by_cases hq : q = p
    · simp [upsertPending, hq, lookupPending]
    · simp only [upsertPending, if_neg hq]
      rw [lookupPending, List.find?_cons_of_neg _ (by simpa using hq)]
      exact ih

lemma lookupPending_upsert_other (l : List (String × Int)) (p q : String) (t : Int)
    (hne : q ≠ p) :
    lookupPending (upsertPending l p t) q = lookupPending l q := by
  induction l with
  | nil =>
    rw [upsertPending, lookupPending,
      List.find?_cons_of_neg _ (by simpa using (hne ∘ Eq.symm))]
    rfl
  | cons e rest ih =>
    obtain ⟨r, s⟩ := e
    by_cases hr : r = p
    · subst hr
      rw [upsertPending, if_pos rfl, lookupPending, lookupPending,
        List.find?_cons_of_neg _ (by simpa using (hne ∘ Eq.symm)),
        List.find?_cons_of_neg _ (by simpa using (hne ∘ Eq.symm))]
    · rw [upsertPending, if_neg hr]
      by_cases hrq : r = q
      · subst hrq
        rw [lookupPending, lookupPending, List.find?_cons_of_pos _ (by simp),
          List.find?_cons_of_pos _ (by simp)]
      · rw [lookupPending, lookupPending, List.find?_cons_of_neg _ (by simpa using hrq),
          List.find?_cons_of_neg _ (by simpa using hrq)]
        exact ih

lemma upsertPending_keys (l : List (String × Int)) (p : String) (t : Int) :
    (upsertPending l p t).map Prod.fst =
      if p ∈ l.map Prod.fst then l.map Prod.fst else l.map Prod.fst ++ [p] := by
  induction l with
  | nil => simp [upsertPending]
  | cons e rest ih =>
    obtain ⟨q, s⟩ := e
    by_cases hq : q = p
    · subst hq
      simp [upsertPending]
    · rw [upsertPending, if_neg hq]
      simp only [List.map_cons, List.mem_cons]
      rw [ih]
      by_cases hmem : p ∈ rest.map Prod.fst
      · rw [if_pos hmem, if_pos (Or.inr hmem)]
      · rw [if_neg hmem, if_neg (by
          intro hor
          rcases hor with hq' | hmem'
          · exact hq hq'.symm
          · exact hmem hmem')]
        simp

lemma upsertPending_keys_nodup (l : List (String × Int)) (p : String) (t : Int)
    (h : (l.map Prod.fst).Nodup) : ((upsertPending l p t).map Prod.fst).Nodup := by
  rw [upsertPending_keys]
  by_cases hmem : p ∈ l.map Prod.fst
  · rw [if_pos hmem]; exact h
  · rw [if_neg hmem]
    exact List.Nodup.append h (List.nodup_singleton p) (by
      intro a ha hb
      simp only [List.mem_singleton] at hb
      subst hb
      exact hmem ha)

lemma lookupPending_mem_keys {l : List (String × Int)} {p : String} {t : Int}
    (h : lookupPending l p = some t) : p ∈ l.map Prod.fst := by
  rw [lookupPending] at h
  cases hf : l.find? (fun e => e.1 = p) with
  | none => rw [hf] at h; exact Option.noConfusion h
  | some e =>
    have hmem := List.mem_of_find?_eq_some hf
    have hpred := List.find?_some hf
    simp only [decide_eq_true_eq] at hpred
    rw [← hpred]
    exact List.mem_map_of_mem Prod.fst hmem

lemma lookupPending_entry_mem {l : List (String × Int)} {p : String} {t : Int}
    (h : lookupPending l p = some t) : (p, t) ∈ l := by
  rw [lookupPending] at h
  cases hf : l.find? (fun e => e.1 = p) with
  | none => rw [hf] at h; exact Option.noConfusion h
  | some e =>
    rw [hf] at h
    have hmem := List.mem_of_find?_eq_some hf
    have hpred := List.find?_some hf
    simp only [decide_eq_true_eq] at hpred
    simp only [Option.map_some', Option.some.injEq] at h
    have : e = (p, t) := by
      obtain ⟨e1, e2⟩ := e
      simp only at hpred h
      rw [hpred, h]
    rwa [this] at hmem

lemma handleEvent_write (st : WatchState) (p : String) (t : Int)
    (hmd : isMarkdownPath p = true) (hhid : isHiddenRelPath p = false) :
    handleEvent st p writeOp t = { st with pending := upsertPending st.pending p t } := by
  simp [handleEvent, hmd, hhid, writeOp]

lemma foldWrite_pending (st0 : WatchState) (p : String) (ts : List Int)
    (hmd : isMarkdownPath p = true) (hhid : isHiddenRelPath p = false) :
    (ts.foldl (fun st t => handleEvent st p writeOp t) st0).pending =
      ts.foldl (fun l t => upsertPending l p t) st0.pending := by
  induction ts generalizing st0 with
  | nil => rfl
  | cons t rest ih =>
    rw [List.foldl_cons, List.foldl_cons, handleEvent_write st0 p t hmd hhid]
    exact ih _

lemma foldUpsert_lookup_last (p : String) (ts : List Int) (l0 : List (String × Int))
    (hne : ts ≠ []) :
    lookupPending (ts.foldl (fun l t => upsertPending l p t) l0) p
      = some (ts.getLast hne) := by
  induction ts generalizing l0 with
  | nil => exact absurd rfl hne
  | cons t rest ih =>
    rw [List.foldl_cons]
    cases rest with
    | nil => exact lookupPending_upsert_self l0 p t
    | cons t' rest' =>
      rw [ih (upsertPending l0 p t) (List.cons_ne_nil t' rest'),
        List.getLast_cons (List.cons_ne_nil t' rest')]

lemma foldUpsert_lookup_other (p q : String) (ts : List Int) (l0 : List (String × Int))
    (hne : q ≠ p) :
    lookupPending (ts.foldl (fun l t => upsertPending l p t) l0) q = lookupPending l0 q := by
  induction ts generalizing l0 with
  | nil => rfl
  | cons t rest ih =>
    rw [List.foldl_cons, ih (upsertPending l0 p t),
      lookupPending_upsert_other l0 p q t hne]

lemma foldUpsert_keys_nodup (p : String) (ts : List Int) (l0 : List (String × Int))
    (h : (l0.map Prod.fst).Nodup) :
    ((ts.foldl (fun l t => upsertPending l p t) l0).map Prod.fst).Nodup := by
  induction ts generalizing l0 with
  | nil => exact h
  | cons t rest ih => exact ih _ (upsertPending_keys_nodup l0 p t h)

lemma sweepExpired_count_one (st : WatchState) (now : Int) (p : String) (tN : Int)
    (hnd : (st.pending.map Prod.fst).Nodup)
    (hlk : lookupPending st.pending p = some tN)
    (hexp : debounceDelay ≤ now - tN) :
    (sweepExpired st now).2.count p = 1
    ∧ lookupPending (sweepExpired st now).1.pending p = none := by
  have hentry : (p, tN) ∈ st.pending := lookupPending_entry_mem hlk
  have hmemfilter : (p, tN) ∈ st.pending.filter (fun e => decide (debounceDelay ≤ now - e.2)) := by
    rw [List.mem_filter]
    exact ⟨hentry, by simpa using hexp⟩
  have hptoidx : p ∈ (sweepExpired st now).2 := by
    rw [sweepExpired]
    exact List.mem_map_of_mem Prod.fst hmemfilter
  constructor
  · have hle : (sweepExpired st now).2.count p ≤ 1 := by
      have hsub : (sweepExpired st now).2.Sublist (st.pending.map Prod.fst) := by
        rw [sweepExpired]
        exact List.Sublist.map Prod.fst (List.filter_sublist st.pending)
      calc (sweepExpired st now).2.count p ≤ (st.pending.map Prod.fst).count p :=
            hsub.count_le p
        _ ≤ 1 := List.nodup_iff_count_le_one.mp hnd p
    have hge : 1 ≤ (sweepExpired st now).2.count p := List.count_pos_iff.mpr hptoidx
    omega
  · have hptoidx' : p ∈ (st.pending.filter
        (fun e => decide (debounceDelay ≤ now - e.2))).map Prod.fst :=
      List.mem_map_of_mem Prod.fst hmemfilter
    rw [sweepExpired, lookupPending]
    have hnone : (st.pending.filter (fun e =>
        ¬ ((st.pending.filter (fun e => decide (debounceDelay ≤ now - e.2))).map
          Prod.fst).contains e.1)).find? (fun e => e.1 = p) = none := by
      rw [List.find?_eq_none]
      intro e he hep
      have hep' : e.1 = p := by simpa using hep
      rw [List.mem_filter] at he
      have hcont : ((st.pending.filter (fun e => decide (debounceDelay ≤ now - e.2))).map
          Prod.fst).contains e.1 = true := by
        rw [hep']
        exact List.elem_iff.mpr hptoidx'
      have hb := he.2
      rw [decide_eq_true_eq] at hb
      exact hb hcont
    rw [hnone]
    rfl

/-- Claim C7: N ≥ 1 create/write events on one eligible path refresh the
pending entry in place — after any nonempty event sequence the path has
exactly one entry, holding the last event time, and other paths'
entries are untouched — and once the time since the last event exceeds
the debounce window the sweep removes the entry and returns the path
exactly once for reindexing (`indexPendingFiles` then calls
`indexFile` once per returned path). -/
theorem C7_debounce_single_reindex
    (st0 : WatchState) (p : String) (ts : List Int) (now : Int)
    (hnd : (st0.pending.map Prod.fst).Nodup)
    (hmd : isMarkdownPath p = true)
    (hhid : isHiddenRelPath p = false)
    (hne : ts ≠ []) :
    lookupPending ((ts.foldl (fun st t => handleEvent st p writeOp t) st0).pending) p
        = some (ts.getLast hne)
    ∧ (((ts.foldl (fun st t => handleEvent st p writeOp t) st0).pending).map
        Prod.fst).count p = 1
    ∧ (∀ q, q ≠ p →
        lookupPending ((ts.foldl (fun st t => handleEvent st p writeOp t) st0).pending) q
          = lookupPending st0.pending q)
    ∧ (debounceDelay < now - ts.getLast hne →
        (sweepExpired (ts.foldl (fun st t => handleEvent st p writeOp t) st0) now).2.count p
            = 1
        ∧ lookupPending ((sweepExpired (ts.foldl (fun st t => handleEvent st p writeOp t)
            st0) now).1.pending) p = none) := by
  have hpend := foldWrite_pending st0 p ts hmd hhid
  have hlast : lookupPending ((ts.foldl (fun st t => handleEvent st p writeOp t)
      st0).pending) p = some (ts.getLast hne) := by
    rw [hpend]
    exact foldUpsert_lookup_last p ts st0.pending hne
  have hnd' : (((ts.foldl (fun st t => handleEvent st p writeOp t) st0).pending).map
      Prod.fst).Nodup := by
    rw [hpend]
    exact foldUpsert_keys_nodup p ts st0.pending hnd
  refine ⟨hlast, ?_, ?_, ?_⟩
  · have hmem := lookupPending_mem_keys hlast
    have hle := List.nodup_iff_count_le_one.mp hnd' p
    have hge := List.count_pos_iff.mpr hmem
    omega
  · intro q hq
    rw [hpend]
    exact foldUpsert_lookup_other p q ts st0.pending hq
  · intro hexp
    exact sweepExpired_count_one _ now p (ts.getLast hne) hnd' hlast (le_of_lt hexp)

/-- Witness for C7: two write events at times 0 and 1 on `a.md` leave a
single entry with timestamp 1; a sweep at time 4 (elapsed 3 > 2) returns
the path exactly once. -/
theorem C7_debounce_single_reindex_witness :
    lookupPending ((([0, 1] : List Int).foldl
        (fun st t => handleEvent st "a.md" writeOp t) ⟨[], emptyStore⟩).pending) "a.md"
      = some 1
    ∧ (sweepExpired (([0, 1] : List Int).foldl
        (fun st t => handleEvent st "a.md" writeOp t) ⟨[], emptyStore⟩) 4).2.count "a.md"
      = 1 := by
  have h := C7_debounce_single_reindex ⟨[], emptyStore⟩ "a.md" [0, 1] 4
    (by simp) (by decide) (by decide) (by decide)
  exact ⟨h.1, (h.2.2.2 (by decide)).1⟩

/-- Claim C8 as stated is false: the event handler only tests whether
the relative path *begins* with the hidden marker, so a path with a
hidden component at depth ≥ 2 (e.g. `a/.h/n.md`) is admitted into the
pending set rather than ignored. -/
theorem C8_hidden_filter_cex :
    ¬ (∀ (st : WatchState) (p : String) (op : WatchOp) (t : Int),
        specHiddenAnyDepth p = true → handleEvent st p op t = st) := by
  intro h
  have h2 := h ⟨[], emptyStore⟩ "a/.h/n.md" writeOp 7 (by decide)
  exact absurd h2 (by decide)

/-- Claim C8, amended: the handler admits a path into the pending set
only if it has the `.md` extension (after ASCII lowering), and ignores
exactly those events whose root-relative path begins with the hidden
marker (hidden first component); deeper hidden components are not
filtered by the handler. -/
theorem C8_event_filter_amended (st : WatchState) (relPath : String) (op : WatchOp)
    (t : Int) :
    (isMarkdownPath relPath = false → handleEvent st relPath op t = st)
    ∧ (isHiddenRelPath relPath = true → handleEvent st relPath op t = st)
    ∧ (isMarkdownPath relPath = true → isHiddenRelPath relPath = false →
        (op.write = true ∨ op.create = true) →
        (handleEvent st relPath op t).pending = upsertPending st.pending relPath t) := by
  refine ⟨?_, ?_, ?_⟩
  · intro h
    simp [handleEvent, h]
  · intro h
    simp [handleEvent, h]
  · intro h1 h2 h3
    rcases h3 with hw | hc
    · simp [handleEvent, h1, h2, hw]
    · simp [handleEvent, h1, h2, hc]

/-- Witness for the amended C8: a `.txt` file and a top-level hidden
`.md` file are ignored; a clean `.md` path is admitted. -/
theorem C8_event_filter_amended_witness :
    handleEvent ⟨[], emptyStore⟩ "x.txt" writeOp 3 = ⟨[], emptyStore⟩
    ∧ handleEvent ⟨[], emptyStore⟩ ".hidden.md" writeOp 3 = ⟨[], emptyStore⟩
    ∧ (handleEvent ⟨[], emptyStore⟩ "ok.md" writeOp 3).pending = [("ok.md", 3)] := by
  refine ⟨?_, ?_, ?_⟩
  · exact (C8_event_filter_amended ⟨[], emptyStore⟩ "x.txt" writeOp 3).1 (by decide)
  · exact (C8_event_filter_amended ⟨[], emptyStore⟩ ".hidden.md" writeOp 3).2.1 (by decide)
  · rw [(C8_event_filter_amended ⟨[], emptyStore⟩ "ok.md" writeOp 3).2.2 (by decide)
      (by decide) (Or.inl rfl)]
    rfl

/-- Claim C5, amended: line numbers are 1-based, the instrumented scan
agrees with `chunkMarkdown` once ghost fields are erased, and for every
produced chunk: a flush triggered by a heading line or end of input
records `end_line` equal to the last line appended to the chunk, while a
size-budget flush records `end_line` one less than the last appended
line; `start_line` equals the line at which the buffer began
accumulating, or one less when the preceding flush was size-triggered. -/
theorem C5_line_numbers_amended (content : String) :
    (ichunkMarkdown content).map ichunkErase = chunkMarkdown content
    ∧ ∀ c ∈ ichunkMarkdown content,
        1 ≤ c.startLine
        ∧ (c.bySize = false → c.endLine = c.lastLine)
        ∧ (c.bySize = true → c.endLine + 1 = c.lastLine)
        ∧ (c.startLine = c.firstLine ∨ c.startLine + 1 = c.firstLine) := by
  refine ⟨ichunkMarkdown_erase content, ?_⟩
  intro c hc
  exact ichunkInv_ichunkMarkdown content c hc

/-! ### Embedding batcher (towards C6 and C9) -/

lemma insertBatch_spec (st : Store) (batch : List Pending) (vecs : List (List ℚ))
    (h : batch.length ≤ vecs.length) :
    insertBatch st batch vecs = some
      { st with embeddings :=
          st.embeddings ++ (batch.zip vecs).map (fun pv => (pv.1.chunkId, pv.2)) } := by
  induction batch generalizing st vecs with
  | nil => simp [insertBatch]
  | cons p ps ih =>
    cases vecs with
    | nil => simp at h
    | cons v vs =>
      rw [insertBatch, ih (insertEmbedding st p.chunkId v) vs (by simpa using h)]
      simp [insertEmbedding]

lemma embedBatches_fail_spec
    (provider : Nat → List String → Option (List (List ℚ))) :
    ∀ (k : Nat) (bs : List (List Pending)) (vs : Nat → List (List ℚ)) (st : Store)
      (c0 : Nat),
      k < bs.length →
      (∀ i, i < k → provider (c0 + i) ((bs.getD i []).map (fun p => p.content))
          = some (vs i) ∧ (bs.getD i []).length ≤ (vs i).length) →
      provider (c0 + k) ((bs.getD k []).map (fun p => p.content)) = none →
      embedBatches provider bs st c0 =
        (.providerError,
         { st with embeddings := st.embeddings ++ (List.range k).flatMap (fun i =>
             ((bs.getD i []).zip (vs i)).map (fun pv => (pv.1.chunkId, pv.2))) },
         (List.range (k + 1)).map (fun i => (bs.getD i []).map (fun p => p.content))) := by
  intro k
  induction k with
  | zero =>
    intro bs vs st c0 hk hgood hfail
    cases bs with
    | nil => simp at hk
    | cons b rest =>
      simp only [Nat.add_zero, List.getD_cons_zero] at hfail
      rw [embedBatches]
      simp [hfail, List.range_succ]
  | succ k ih =>
    intro bs vs st c0 hk hgood hfail
    cases bs with
    | nil => simp at hk
    | cons b rest =>
      obtain ⟨hp0, hl0⟩ := hgood 0 (Nat.succ_pos k)
      rw [Nat.add_zero] at hp0
      simp only [List.getD_cons_zero] at hp0 hl0
      have ihr := ih rest (fun i => vs (i + 1))
        { st with embeddings := st.embeddings ++
            (b.zip (vs 0)).map (fun pv => (pv.1.chunkId, pv.2)) }
        (c0 + 1) (Nat.lt_of_succ_lt_succ hk)
        (by
          intro i hi
          have := hgood (i + 1) (Nat.succ_lt_succ hi)
          rw [show c0 + (i + 1) = c0 + 1 + i from by omega] at this
          simpa using this)
        (by
          have := hfail
          rw [show c0 + (k + 1) = c0 + 1 + k from by omega] at this
          simpa using this)
      rw [embedBatches]
      simp only [hp0, insertBatch_spec st b (vs 0) hl0, ihr]
      rw [Prod.mk.injEq]
      refine ⟨rfl, ?_⟩
      rw [Prod.mk.injEq]
      constructor
      · rw [Store.mk.injEq]
        refine ⟨rfl, rfl, ?_, rfl, rfl⟩
        rw [List.append_assoc]
        refine congrArg (fun x => st.embeddings ++ x) ?_
        rw [List.range_succ_eq_map, List.flatMap_cons]
        simp only [List.getD_cons_zero]
        refine congrArg (fun x => (b.zip (vs 0)).map
          (fun pv => (pv.1.chunkId, pv.2)) ++ x) ?_
        rw [List.flatMap_map]
        refine List.flatMap_congr ?_
        intro i _
        simp [Function.comp]
      · conv_rhs => rw [List.range_succ_eq_map, List.map_cons, List.map_map]
        simp [Function.comp, List.getD_cons_succ, List.getD_cons_zero]

/-- Claim C6: when the embedding provider fails on batch `k` (after
succeeding on the earlier batches), the whole call aborts with a
provider error, exactly the batches up to and including `k` were
submitted, the embeddings committed for batches before `k` remain in
the store, and the store's chunks and documents are untouched — chunks
of the failed and later batches stay stored without embeddings. -/
theorem C6_batch_failure_abort
    (provider : Nat → List String → Option (List (List ℚ)))
    (st : Store) (pending : List Pending) (k : Nat) (vs : Nat → List (List ℚ))
    (hk : k < (batches pending).length)
    (hgood : ∀ i, i < k →
      provider i (((batches pending).getD i []).map (fun p => p.content)) = some (vs i)
      ∧ ((batches pending).getD i []).length ≤ (vs i).length)
    (hfail : provider k (((batches pending).getD k []).map (fun p => p.content)) = none) :
    embedPending provider st pending =
      (.providerError,
       { st with embeddings := st.embeddings ++ (List.range k).flatMap (fun i =>
           (((batches pending).getD i []).zip (vs i)).map
             (fun pv => (pv.1.chunkId, pv.2))) },
       (List.range (k + 1)).map (fun i =>
         ((batches pending).getD i []).map (fun p => p.content))) := by
  rw [embedPending]
  exact embedBatches_fail_spec provider k (batches pending) vs st 0 hk
    (by simpa using hgood) (by simpa using hfail)

/-- Witness for C6: 97 pending chunks form two batches; the provider
serves batch 0 (96 vectors) and fails on batch 1.  The call aborts with
a provider error, both batches were submitted, and exactly batch 0's 96
embeddings are committed. -/
theorem C6_batch_failure_abort_witness :
    embedPending
        (fun i _ => if i = 0 then some (List.replicate 96 [(1 : ℚ)]) else none)
        emptyStore (List.replicate 96 ⟨1, "a"⟩ ++ [⟨2, "b"⟩]) =
      (.providerError,
       { emptyStore with embeddings := List.replicate 96 ((1 : Int), [(1 : ℚ)]) },
       [List.replicate 96 "a", ["b"]]) := by
  have h := C6_batch_failure_abort
    (fun i _ => if i = 0 then some (List.replicate 96 [(1 : ℚ)]) else none)
    emptyStore (List.replicate 96 ⟨1, "a"⟩ ++ [⟨2, "b"⟩]) 1
    (fun _ => List.replicate 96 [(1 : ℚ)])
    (by decide)
    (by
      intro i hi
      obtain rfl : i = 0 := by omega
      exact ⟨rfl, by decide⟩)
    rfl
  rw [h]
  decide

/-- Claim C9: `embedPending` reads the `j`-th returned vector for every
index below the batch length without checking the returned count.  It
never panics when the provider returns at least one vector per
submitted text; a provider response shorter than the batch makes the
access out of range (modelled by `EmbedResult.panic`); and the provider
client (`EmbedDocuments`) passes the response through without enforcing
that precondition. -/
theorem C9_embed_length_precondition :
    (∀ (provider : Nat → List String → Option (List (List ℚ))) (st : Store)
        (pending : List Pending),
      (∀ i ts vsr, provider i ts = some vsr → ts.length ≤ vsr.length) →
      (embedPending provider st pending).1 ≠ .panic)
    ∧ (embedPending (fun _ _ => some []) emptyStore [⟨1, "x"⟩]).1 = .panic
    ∧ (∀ (texts : List String) (resp : Option (List (List ℚ))), texts ≠ [] →
        clientEmbedDocuments texts resp = resp) := by
  refine ⟨?_, by decide, ?_⟩
  · intro provider st pending hgood
    rw [embedPending]
    suffices hall : ∀ (bs : List (List Pending)) (c0 : Nat) (st' : Store),
        (embedBatches provider bs st' c0).1 ≠ .panic from hall _ 0 st
    intro bs
    induction bs with
    | nil =>
      intro c0 st'
      rw [embedBatches]
      exact fun h => EmbedResult.noConfusion h
    | cons b rest ih =>
      intro c0 st'
      rw [embedBatches]
      cases hp : provider c0 (b.map (fun p => p.content)) with
      | none => exact fun h => EmbedResult.noConfusion h
      | some vecs =>
        have hlen : b.length ≤ vecs.length := by
          have := hgood c0 (b.map (fun p => p.content)) vecs hp
          simpa using this
        simp only [insertBatch_spec st' b vecs hlen]
        exact ih (c0 + 1) _
  · intro texts resp h
    rw [clientEmbedDocuments, if_neg]
    intro hE
    rw [List.isEmpty_iff] at hE
    exact h hE

/-- Witness for C9: a provider returning one (empty) vector per text
never panics; `EmbedDocuments` passes `none` through unchanged. -/
theorem C9_embed_length_precondition_witness :
    (embedPending (fun _ ts => some (ts.map (fun _ => ([] : List ℚ)))) emptyStore
        [⟨1, "x"⟩]).1 ≠ .panic
    ∧ clientEmbedDocuments ["x"] none = none := by
  constructor
  · exact C9_embed_length_precondition.1
      (fun _ ts => some (ts.map (fun _ => ([] : List ℚ)))) emptyStore [⟨1, "x"⟩]
      (fun i ts vsr h => by
        have h' := Option.some.inj h
        rw [← h']
        simp)
  · exact C9_embed_length_precondition.2.2 ["x"] none (List.cons_ne_nil _ _)

/-! ### Store document-lookup lemmas (towards C2) -/

lemma find?_path_filter (l : List Document) (p q : String) (hne : p ≠ q) :
    (l.filter (fun e => ¬ e.path = q)).find? (fun d => d.path = p)
      = l.find? (fun d => d.path = p) := by
  induction l with
  | nil => rfl
  | cons d rest ih =>
    by_cases hdq : d.path = q
    · rw [List.filter_cons_of_neg (by simpa using hdq),
        List.find?_cons_of_neg _ (by simp [hdq, Ne.symm hne])]
      exact ih
    · rw [List.filter_cons_of_pos (by simpa using hdq)]
      by_cases hdp : d.path = p
      · rw [List.find?_cons_of_pos _ (by simpa using hdp),
          List.find?_cons_of_pos _ (by simpa using hdp)]
      · rw [List.find?_cons_of_neg _ (by simpa using hdp),
          List.find?_cons_of_neg _ (by simpa using hdp)]
        exact ih

lemma findDoc_delete (st : Store) (p q : String) :
    findDoc (deleteDocumentByPath st q) p = if p = q then none else findDoc st p := by
  rw [deleteDocumentByPath]
  cases hq : findDoc st q with
  | none =>
    by_cases hpq : p = q
    · subst hpq
      rw [if_pos rfl]
      exact hq
    · rw [if_neg hpq]
  | some d =>
    by_cases hpq : p = q
    · subst hpq
      rw [if_pos rfl, findDoc, List.find?_eq_none]
      intro e he hep
      rw [List.mem_filter] at he
      have h1 := he.2
      rw [decide_eq_true_eq] at h1
      exact h1 (by simpa using hep)
    · rw [if_neg hpq, findDoc, findDoc]
      exact find?_path_filter st.documents p q hpq

lemma findDoc_deleteFold (docs : List Document) (cps : List String) (st : Store)
    (p : String) (hp : p ∈ cps) :
    findDoc (docs.foldl (deleteAbsentStep cps) st) p = findDoc st p := by
  induction docs generalizing st with
  | nil => rfl
  | cons d rest ih =>
    rw [List.foldl_cons, deleteAbsentStep]
    by_cases hc : cps.contains d.path = true
    · rw [if_pos hc]
      exact ih st
    · rw [if_neg hc, ih, findDoc_delete, if_neg]
      intro hpd
      subst hpd
      exact hc (List.elem_iff.mpr hp)

lemma find?_path_map_update (l : List Document) (p title : String) (m i : Int) :
    (l.map (fun e => if e.path = p then
        { e with title := title, modifiedAt := m, indexedAt := i } else e)).find?
      (fun d => d.path = p)
    = (l.find? (fun d => d.path = p)).map
        (fun e => { e with title := title, modifiedAt := m, indexedAt := i }) := by
  induction l with
  | nil => rfl
  | cons d rest ih =>
    by_cases hdp : d.path = p
    · rw [List.map_cons, if_pos hdp, List.find?_cons_of_pos _ (by simpa using hdp),
        List.find?_cons_of_pos _ (by simpa using hdp)]
      rfl
    · rw [List.map_cons, if_neg hdp, List.find?_cons_of_neg _ (by simpa using hdp),
        List.find?_cons_of_neg _ (by simpa using hdp)]
      exact ih

lemma find?_path_map_update_other (l : List Document) (p q title : String) (m i : Int)
    (hne : q ≠ p) :
    (l.map (fun e => if e.path = p then
        { e with title := title, modifiedAt := m, indexedAt := i } else e)).find?
      (fun d => d.path = q)
    = l.find? (fun d => d.path = q) := by
  induction l with
  | nil => rfl
  | cons d rest ih =>
    by_cases hdp : d.path = p
    · have hdq : ¬ d.path = q := by rw [hdp]; exact fun h => hne h.symm
      rw [List.map_cons, if_pos hdp, List.find?_cons_of_neg _ (by simpa using hdq),
        List.find?_cons_of_neg _ (by simpa using hdq)]
      exact ih
    · by_cases hdq : d.path = q
      · rw [List.map_cons, if_neg hdp, List.find?_cons_of_pos _ (by simpa using hdq),
          List.find?_cons_of_pos _ (by simpa using hdq)]
      · rw [List.map_cons, if_neg hdp, List.find?_cons_of_neg _ (by simpa using hdq),
          List.find?_cons_of_neg _ (by simpa using hdq)]
        exact ih

lemma find?_path_append_of_none (l : List Document) (d : Document) (p : String)
    (h : l.find? (fun e => e.path = p) = none) :
    (l ++ [d]).find? (fun e => e.path = p) = [d].find? (fun e => e.path = p) := by
  rw [List.find?_eq_none] at h
  induction l with
  | nil => rfl
  | cons e rest ih =>
    rw [List.cons_append,
      List.find?_cons_of_neg _ (by exact h e (List.mem_cons_self e rest))]
    exact ih (fun x hx => h x (List.mem_cons_of_mem e hx))

lemma find?_path_append_single_ne (l : List Document) (d : Document) (q : String)
    (hd : ¬ d.path = q) :
    (l ++ [d]).find? (fun e => e.path = q) = l.find? (fun e => e.path = q) := by
  induction l with
  | nil =>
    rw [List.nil_append, List.find?_cons_of_neg _ (by simpa using hd)]
  | cons e rest ih =>
    by_cases heq : e.path = q
    · rw [List.cons_append, List.find?_cons_of_pos _ (by simpa using heq),
        List.find?_cons_of_pos _ (by simpa using heq)]
    · rw [List.cons_append, List.find?_cons_of_neg _ (by simpa using heq),
        List.find?_cons_of_neg _ (by simpa using heq)]
      exact ih

lemma findDoc_upsert_self (st : Store) (p title : String) (m i : Int) :
    ∃ d, findDoc (upsertDocument st p title m i).2 p = some d ∧ d.modifiedAt = m := by
  rw [upsertDocument]
  cases hf : findDoc st p with
  | some d =>
    refine ⟨{ d with title := title, modifiedAt := m, indexedAt := i }, ?_, rfl⟩
    rw [findDoc, find?_path_map_update]
    rw [findDoc] at hf
    rw [hf]
    rfl
  | none =>
    refine ⟨⟨st.nextDocId, p, title, m, i⟩, ?_, rfl⟩
    rw [findDoc] at hf ⊢
    rw [find?_path_append_of_none st.documents _ p hf,
      List.find?_cons_of_pos _ (by simp)]

lemma findDoc_upsert_other (st : Store) (p q title : String) (m i : Int)
    (hne : q ≠ p) :
    findDoc (upsertDocument st p title m i).2 q = findDoc st q := by
  rw [upsertDocument]
  cases hf : findDoc st p with
  | some d =>
    rw [findDoc, find?_path_map_update_other st.documents p q title m i hne]
    rfl
  | none =>
    rw [findDoc, find?_path_append_single_ne st.documents _ q
      (by simpa using fun h => hne h.symm)]
    rfl

lemma persistChunks_fold_documents (cs : List Chunk) (docId : Int)
    (acc : Store × List Pending) :
    ((cs.foldl (fun acc c =>
      let r := insertChunk acc.1 docId c
      (r.2, acc.2 ++ [⟨r.1, c.content⟩])) acc).1).documents = acc.1.documents := by
  induction cs generalizing acc with
  | nil => rfl
  | cons c rest ih =>
    rw [List.foldl_cons, ih]
    rfl

lemma findDoc_parseFile_self (st : Store) (f : FSFile) (now : Int) :
    ∃ d, findDoc (parseFile st f now).1 f.path = some d ∧ d.modifiedAt = f.mtime := by
  obtain ⟨d, hd, hm⟩ := findDoc_upsert_self st f.path (extractTitle f.content f.path)
    f.mtime now
  refine ⟨d, ?_, hm⟩
  rw [parseFile]
  rw [show findDoc (persistChunks (deleteChunksForDocument
      (upsertDocument st f.path (extractTitle f.content f.path) f.mtime now).2
      (upsertDocument st f.path (extractTitle f.content f.path) f.mtime now).1)
      (upsertDocument st f.path (extractTitle f.content f.path) f.mtime now).1
      (chunkMarkdown f.content)).1 f.path
    = findDoc (upsertDocument st f.path (extractTitle f.content f.path) f.mtime now).2
      f.path from by
      rw [findDoc, findDoc, persistChunks, persistChunks_fold_documents]
      rfl]
  exact hd

lemma findDoc_parseFile_other (st : Store) (f : FSFile) (now : Int) (p : String)
    (hne : p ≠ f.path) :
    findDoc (parseFile st f now).1 p = findDoc st p := by
  rw [parseFile]
  rw [show findDoc (persistChunks (deleteChunksForDocument
      (upsertDocument st f.path (extractTitle f.content f.path) f.mtime now).2
      (upsertDocument st f.path (extractTitle f.content f.path) f.mtime now).1)
      (upsertDocument st f.path (extractTitle f.content f.path) f.mtime now).1
      (chunkMarkdown f.content)).1 p
    = findDoc (upsertDocument st f.path (extractTitle f.content f.path) f.mtime now).2
      p from by
      rw [findDoc, findDoc, persistChunks, persistChunks_fold_documents]
      rfl]
  exact findDoc_upsert_other st f.path p _ f.mtime now hne

lemma findDoc_parseFold_other (ts : List FSFile) (now : Int)
    (acc : Store × List Pending) (p : String) (hp : ∀ f ∈ ts, f.path ≠ p) :
    findDoc (ts.foldl (parseStep now) acc).1 p = findDoc acc.1 p := by
  induction ts generalizing acc with
  | nil => rfl
  | cons g rest ih =>
    rw [List.foldl_cons, ih _ (fun f hf => hp f (List.mem_cons_of_mem g hf))]
    exact findDoc_parseFile_other acc.1 g now p
      (fun h => hp g (List.mem_cons_self g rest) h.symm)

lemma findDoc_parseFold_self (ts : List FSFile) (now : Int)
    (acc : Store × List Pending) (f : FSFile) (hf : f ∈ ts)
    (hnd : (ts.map (fun g => g.path)).Nodup) :
    ∃ d, findDoc (ts.foldl (parseStep now) acc).1 f.path = some d
      ∧ d.modifiedAt = f.mtime := by
  induction ts generalizing acc with
  | nil => simp at hf
  | cons g rest ih =>
    rw [List.foldl_cons]
    rw [List.map_cons, List.nodup_cons] at hnd
    rcases List.mem_cons.mp hf with rfl | hf'
    · have hnotin : ∀ h ∈ rest, h.path ≠ f.path := by
        intro h hh heq
        exact hnd.1 (by rw [← heq]; exact List.mem_map_of_mem (fun g => g.path) hh)
      rw [findDoc_parseFold_other rest now (parseStep now acc f) f.path hnotin]
      exact findDoc_parseFile_self acc.1 f now
    · exact ih _ hf' hnd.2

lemma insertBatch_documents (batch : List Pending) :
    ∀ (vecs : List (List ℚ)) (st st' : Store),
      insertBatch st batch vecs = some st' → st'.documents = st.documents := by
  induction batch with
  | nil =>
    intro vecs st st' h
    rw [insertBatch] at h
    rw [← Option.some.inj h]
  | cons p ps ih =>
    intro vecs st st' h
    cases vecs with
    | nil =>
      rw [insertBatch] at h
      exact Option.noConfusion h
    | cons v vs =>
      rw [insertBatch] at h
      rw [ih vs (insertEmbedding st p.chunkId v) st' h]
      rfl

lemma embedBatches_documents (provider : Nat → List String → Option (List (List ℚ)))
    (bs : List (List Pending)) :
    ∀ (st : Store) (c0 : Nat),
      ((embedBatches provider bs st c0).2.1).documents = st.documents := by
  induction bs with
  | nil => intro st c0; rfl
  | cons b rest ih =>
    intro st c0
    rw [embedBatches]
    rcases hp : provider c0 (b.map (fun p => p.content)) with - | vecs
    · simp only [hp]
    · rcases hib : insertBatch st b vecs with - | st'
      · simp only [hp, hib]
      · simp only [hp, hib]
        exact (ih st' (c0 + 1)).trans (insertBatch_documents b vecs st st' hib)

lemma indexRun_store_documents (st : Store) (fs : List FSFile) (full : Bool)
    (now : Int) (provider : Nat → List String → Option (List (List ℚ))) :
    (indexRun st fs full now provider).store.documents =
      ((fs.filter (fun f => needsIndexingB full (findDoc st f.path) f.mtime)).foldl
        (parseStep now)
        (st.documents.foldl (deleteAbsentStep (fs.map (fun f => f.path))) st,
          [])).1.documents := by
  simp only [indexRun]
  split
  next h1 =>
    rw [List.isEmpty_iff.mp h1]
    rfl
  next h1 =>
    split
    next h2 => rfl
    next h2 =>
      rw [embedPending]
      exact embedBatches_documents provider _ _ 0

lemma needsIndexingB_iff (full : Bool) (doc : Option Document) (mtime : Int) :
    needsIndexingB full doc mtime = true ↔
      (full = true ∨ doc = none ∨ ∃ d, doc = some d ∧ d.modifiedAt < mtime) := by
  cases full
  · cases doc with
    | none => simp [needsIndexingB]
    | some d => simp [needsIndexingB]
  · simp [needsIndexingB]

lemma indexRun_doc_after (st : Store) (fs : List FSFile) (full : Bool) (now : Int)
    (provider : Nat → List String → Option (List (List ℚ)))
    (hnd : (fs.map (fun f => f.path)).Nodup) (f : FSFile) (hf : f ∈ fs) :
    ∃ d, findDoc (indexRun st fs full now provider).store f.path = some d
      ∧ ¬ (d.modifiedAt < f.mtime) := by
  have hfd : findDoc (indexRun st fs full now provider).store f.path =
      findDoc ((fs.filter (fun g => needsIndexingB full (findDoc st g.path)
        g.mtime)).foldl (parseStep now)
        (st.documents.foldl (deleteAbsentStep (fs.map (fun g => g.path))) st, [])).1
        f.path := by
    rw [findDoc, findDoc, indexRun_store_documents]
  have hst1 : findDoc (st.documents.foldl (deleteAbsentStep
      (fs.map (fun g => g.path))) st) f.path = findDoc st f.path :=
    findDoc_deleteFold st.documents _ st f.path
      (List.mem_map_of_mem (fun g => g.path) hf)
  by_cases hneed : needsIndexingB full (findDoc st f.path) f.mtime = true
  · have hmem : f ∈ fs.filter (fun g => needsIndexingB full (findDoc st g.path)
        g.mtime) := List.mem_filter.mpr ⟨hf, hneed⟩
    have hndf : ((fs.filter (fun g => needsIndexingB full (findDoc st g.path)
        g.mtime)).map (fun g => g.path)).Nodup :=
      hnd.sublist (List.Sublist.map (fun g => g.path) (List.filter_sublist fs))
    obtain ⟨d, hd, hm⟩ := findDoc_parseFold_self _ now
      (st.documents.foldl (deleteAbsentStep (fs.map (fun g => g.path))) st, [])
      f hmem hndf
    refine ⟨d, ?_, ?_⟩
    · rw [hfd]
      exact hd
    · rw [hm]
      exact lt_irrefl _
  · cases hdoc : findDoc st f.path with
    | none =>
      exact absurd ((needsIndexingB_iff full _ f.mtime).mpr (Or.inr (Or.inl hdoc)))
        hneed
    | some d =>
      have hlt : ¬ (d.modifiedAt < f.mtime) := by
        intro hl
        exact hneed ((needsIndexingB_iff full _ f.mtime).mpr
          (Or.inr (Or.inr ⟨d, hdoc, hl⟩)))
      have hnotin : ∀ g ∈ fs.filter (fun g => needsIndexingB full (findDoc st g.path)
          g.mtime), g.path ≠ f.path := by
        intro g hg heq
        have hgfs := (List.mem_filter.mp hg).1
        have hgf : g = f := List.inj_on_of_nodup_map hnd hgfs hf heq
        rw [hgf] at hg
        exact hneed (by simpa using (List.mem_filter.mp hg).2)
      refine ⟨d, ?_, hlt⟩
      rw [hfd, findDoc_parseFold_other _ now _ f.path hnotin]
      exact hst1.trans hdoc

lemma persistChunks_fold_pending (cs : List Chunk) (docId : Int) :
    ∀ (acc : Store × List Pending) (u : Pending),
      u ∈ (cs.foldl (fun acc c =>
        let r := insertChunk acc.1 docId c
        (r.2, acc.2 ++ [⟨r.1, c.content⟩])) acc).2 →
      u ∈ acc.2 ∨ u.content ∈ cs.map Chunk.content := by
  induction cs with
  | nil => exact fun acc u hu => Or.inl hu
  | cons c rest ih =>
    intro acc u hu
    rw [List.foldl_cons] at hu
    rcases ih _ u hu with h | h
    · have h2 : u ∈ acc.2 ++
          [(⟨(insertChunk acc.1 docId c).1, c.content⟩ : Pending)] := h
      rcases List.mem_append.mp h2 with h' | h'
      · exact Or.inl h'
      · simp only [List.mem_singleton] at h'
        rw [h']
        exact Or.inr (by rw [List.map_cons]; exact List.mem_cons_self _ _)
    · exact Or.inr (by rw [List.map_cons]; exact List.mem_cons_of_mem _ h)

lemma parseFile_pending (st : Store) (f : FSFile) (now : Int) :
    ∀ u ∈ (parseFile st f now).2,
      u.content ∈ (chunkMarkdown f.content).map Chunk.content := by
  intro u hu
  rw [parseFile, persistChunks] at hu
  rcases persistChunks_fold_pending (chunkMarkdown f.content) _ _ u hu with h | h
  · exact absurd h (List.not_mem_nil u)
  · exact h

lemma parseFold_pending (ts : List FSFile) (now : Int) :
    ∀ (acc : Store × List Pending) (u : Pending),
      u ∈ (ts.foldl (parseStep now) acc).2 →
      u ∈ acc.2 ∨ ∃ f ∈ ts, u.content ∈ (chunkMarkdown f.content).map Chunk.content := by
  induction ts with
  | nil => exact fun acc u hu => Or.inl hu
  | cons g rest ih =>
    intro acc u hu
    rw [List.foldl_cons] at hu
    rcases ih _ u hu with h | ⟨f, hfm, hc⟩
    · have h2 : u ∈ acc.2 ++ (parseFile acc.1 g now).2 := h
      rcases List.mem_append.mp h2 with h' | h'
      · exact Or.inl h'
      · exact Or.inr ⟨g, List.mem_cons_self g rest, parseFile_pending acc.1 g now u h'⟩
    · exact Or.inr ⟨f, List.mem_cons_of_mem g hfm, hc⟩

/-- Claim C2: during reconcile, a present path is reindexed iff
`full_reindex` is set, or no prior document exists, or the file's
mtime is strictly newer than the recorded `modified_at`
(`needsIndexingB` characterisation plus `parsed` = exactly the filtered
paths); every pending unit submitted for embedding comes from the
chunking of a file that needed indexing (a skipped path is neither read,
chunked, nor included in any embedding-provider call); and a second
reconcile over the same unchanged tree with `full_reindex = false`
parses no file and issues zero embedding-provider calls. -/
theorem C2_incremental_skip
    (st : Store) (fs : List FSFile) (full : Bool) (now now2 : Int)
    (provider provider2 : Nat → List String → Option (List (List ℚ)))
    (hnd : (fs.map (fun f => f.path)).Nodup) :
    (∀ (fullb : Bool) (doc : Option Document) (mtime : Int),
        needsIndexingB fullb doc mtime = true ↔
          (fullb = true ∨ doc = none ∨ ∃ d, doc = some d ∧ d.modifiedAt < mtime))
    ∧ (indexRun st fs full now provider).parsed =
        (fs.filter (fun f => needsIndexingB full (findDoc st f.path) f.mtime)).map
          (fun f => f.path)
    ∧ (∀ u ∈ (indexRun st fs full now provider).pending, ∃ f ∈ fs,
        needsIndexingB full (findDoc st f.path) f.mtime = true ∧
        u.content ∈ (chunkMarkdown f.content).map Chunk.content)
    ∧ (indexRun (indexRun st fs full now provider).store fs false now2 provider2).calls
        = []
    ∧ (indexRun (indexRun st fs full now provider).store fs false now2 provider2).parsed
        = [] := by
  refine ⟨needsIndexingB_iff, ?_, ?_, ?_, ?_⟩
  · simp only [indexRun]
    split
    next h1 =>
      rw [List.isEmpty_iff.mp h1]
      rfl
    next h1 =>
      split
      next h2 => rfl
      next h2 => rfl
  · simp only [indexRun]
    split
    next h1 => exact fun u hu => absurd hu (List.not_mem_nil u)
    next h1 =>
      split
      next h2 => exact fun u hu => absurd hu (List.not_mem_nil u)
      next h2 =>
        intro u hu
        rcases parseFold_pending _ now _ u hu with h | ⟨f, hfm, hc⟩
        · exact absurd h (List.not_mem_nil u)
        · have hm := List.mem_filter.mp hfm
          exact ⟨f, hm.1, by simpa using hm.2, hc⟩
  · have hempty2 : fs.filter (fun f => needsIndexingB false
        (findDoc (indexRun st fs full now provider).store f.path) f.mtime) = [] := by
      rw [List.filter_eq_nil_iff]
      intro f hf
      obtain ⟨d, hd, hlt⟩ := indexRun_doc_after st fs full now provider hnd f hf
      rw [hd]
      simp [needsIndexingB, hlt]
    conv_lhs => rw [indexRun]
    rw [hempty2]
    rfl
  · have hempty2 : fs.filter (fun f => needsIndexingB false
        (findDoc (indexRun st fs full now provider).store f.path) f.mtime) = [] := by
      rw [List.filter_eq_nil_iff]
      intro f hf
      obtain ⟨d, hd, hlt⟩ := indexRun_doc_after st fs full now provider hnd f hf
      rw [hd]
      simp [needsIndexingB, hlt]
    conv_lhs => rw [indexRun]
    rw [hempty2]
    rfl

/-- Witness for C2: one note file, indexed from an empty store; a second
reconcile with `full_reindex = false` parses nothing and makes zero
embedding-provider calls. -/
theorem C2_incremental_skip_witness :
    (indexRun (indexRun emptyStore [⟨"n.md", 5, "twenty plus characters of body"⟩]
        false 10 (fun _ ts => some (ts.map (fun _ => [(1 : ℚ)])))).store
      [⟨"n.md", 5, "twenty plus characters of body"⟩] false 20
      (fun _ ts => some (ts.map (fun _ => [(1 : ℚ)])))).calls = [] := by
  exact (C2_incremental_skip emptyStore [⟨"n.md", 5, "twenty plus characters of body"⟩]
    false 10 20 (fun _ ts => some (ts.map (fun _ => [(1 : ℚ)])))
    (fun _ ts => some (ts.map (fun _ => [(1 : ℚ)]))) (by decide)).2.2.2.1

/-- Claim C1: for every query where the vector search returns a non-empty
candidate list and the rerank call succeeds (with in-range indices, cf.
C10), the `i`-th returned result is built from the candidate at the
rerank provider's `i`-th returned index, with rank `i + 1` and that
selection's relevance score; the result list is exactly that mapping, so
candidates not selected by the rerank response are absent, and changing
the vector-search distances of the candidates does not change the
results, so a distance never surfaces as a final score. -/
theorem C1_rerank_mapping
    (qv : List ℚ) (query : String)
    (searchSimilar : List ℚ → List Candidate)
    (rerankFn : String → List String → Option (List RerankResult))
    (cands : List Candidate) (rrs : List RerankResult)
    (hss : searchSimilar qv = cands)
    (hne : cands ≠ [])
    (hrr : rerankFn query (cands.map (·.content)) = some rrs)
    (hrange : ∀ rr ∈ rrs, 0 ≤ rr.index ∧ rr.index.toNat < cands.length) :
    searchGo (some qv) searchSimilar rerankFn query = .ok (expectedResults cands rrs)
    ∧ ∀ g : ℚ → ℚ,
        searchGo (some qv) (fun v => (searchSimilar v).map (updDist g)) rerankFn query
          = .ok (expectedResults cands rrs) := by
  have hempty : cands.isEmpty = false := by
    cases cands with
    | nil => exact absurd rfl hne
    | cons a l => rfl
  constructor
  · rw [searchGo, hss, hempty]
    simp only [Bool.false_eq_true, if_false, hrr,
      mapRerank_eq_some cands rrs 0 hrange, expectedResults, Nat.zero_add]
  · intro g
    have hcontent : (cands.map (updDist g)).map (·.content) = cands.map (·.content) := by
      rw [List.map_map]; rfl
    have hempty' : (cands.map (updDist g)).isEmpty = false := by
      cases cands with
      | nil => exact absurd rfl hne
      | cons a l => rfl
    rw [searchGo, hss, hempty']
    simp only [Bool.false_eq_true, if_false, hcontent, hrr, mapRerank_updDist,
      mapRerank_eq_some cands rrs 0 hrange, expectedResults, Nat.zero_add]

/-- Witness for C1, instantiating the spec's example: candidates
`[c0, c1, c2]` and rerank response `[{index 2, score 0.9},
{index 0, score 0.5}]` produce `[c2 rank 1 score 0.9, c0 rank 2 score
0.5]`, and `c1` is dropped. -/
theorem C1_rerank_mapping_witness :
    searchGo (some [1])
      (fun _ => [⟨10, 100, "content zero", 1, 2, "h0", 3/10, "p0"⟩,
                 ⟨11, 101, "content one", 3, 4, "h1", 4/10, "p1"⟩,
                 ⟨12, 102, "content two", 5, 6, "h2", 5/10, "p2"⟩])
      (fun _ _ => some [⟨2, 9/10⟩, ⟨0, 1/2⟩]) "q"
      = .ok [⟨1, 9/10, "p2", "h2", "content two", 5, 6, 102, 12⟩,
             ⟨2, 1/2, "p0", "h0", "content zero", 1, 2, 100, 10⟩] := by
  have h := C1_rerank_mapping [1] "q"
    (fun _ => [⟨10, 100, "content zero", 1, 2, "h0", 3/10, "p0"⟩,
               ⟨11, 101, "content one", 3, 4, "h1", 4/10, "p1"⟩,
               ⟨12, 102, "content two", 5, 6, "h2", 5/10, "p2"⟩])
    (fun _ _ => some [⟨2, 9/10⟩, ⟨0, 1/2⟩])
    [⟨10, 100, "content zero", 1, 2, "h0", 3/10, "p0"⟩,
     ⟨11, 101, "content one", 3, 4, "h1", 4/10, "p1"⟩,
     ⟨12, 102, "content two", 5, 6, "h2", 5/10, "p2"⟩]
    [⟨2, 9/10⟩, ⟨0, 1/2⟩]
    rfl (List.cons_ne_nil _ _) rfl (by decide)
  rw [h.1]
  simp [expectedResults, List.range_succ, List.getD_cons_zero,
    List.getD_cons_succ, mkResult]

/-- Claim C10: `Search` indexes the candidate list with each rerank index
without a bounds check; when every returned index lies in `[0, number of
candidates)` no out-of-range access occurs, and an index outside that
range makes the candidate access out of range (a runtime panic, modelled
by `SearchOutcome.panicOOB`). -/
theorem C10_rerank_index_bounds
    (qv : List ℚ) (query : String)
    (searchSimilar : List ℚ → List Candidate)
    (rerankFn : String → List String → Option (List RerankResult))
    (cands : List Candidate) (rrs : List RerankResult)
    (hss : searchSimilar qv = cands)
    (hrr : rerankFn query (cands.map (·.content)) = some rrs) :
    ((∀ rr ∈ rrs, 0 ≤ rr.index ∧ rr.index.toNat < cands.length) →
        searchGo (some qv) searchSimilar rerankFn query ≠ .panicOOB)
    ∧ ((cands ≠ []) →
        (∃ rr ∈ rrs, ¬(0 ≤ rr.index ∧ rr.index.toNat < cands.length)) →
        searchGo (some qv) searchSimilar rerankFn query = .panicOOB) := by
  constructor
  · intro hrange
    cases hc : cands.isEmpty with
    | true =>
      rw [searchGo, hss, hc]
      simp
    | false =>
      rw [searchGo, hss, hc]
      simp only [Bool.false_eq_true, if_false, hrr,
        mapRerank_eq_some cands rrs 0 hrange]
      simp
  · intro hne hoob
    have hempty : cands.isEmpty = false := by
      cases cands with
      | nil => exact absurd rfl hne
      | cons a l => rfl
    rw [searchGo, hss, hempty]
    simp only [Bool.false_eq_true, if_false, hrr, mapRerank_oob cands rrs 0 hoob]

/-- Witness for C10: with one candidate, index 0 is served without a
panic, while index 5 panics. -/
theorem C10_rerank_index_bounds_witness :
    (searchGo (some [1]) (fun _ => [⟨10, 100, "c", 1, 2, "h", 3/10, "p"⟩])
        (fun _ _ => some [⟨0, 1⟩]) "q" ≠ .panicOOB)
    ∧ (searchGo (some [1]) (fun _ => [⟨10, 100, "c", 1, 2, "h", 3/10, "p"⟩])
        (fun _ _ => some [⟨5, 1⟩]) "q" = .panicOOB) := by
  constructor
  · exact (C10_rerank_index_bounds [1] "q" _ _
      [⟨10, 100, "c", 1, 2, "h", 3/10, "p"⟩] [⟨0, 1⟩] rfl rfl).1 (by decide)
  · exact (C10_rerank_index_bounds [1] "q" _ _
      [⟨10, 100, "c", 1, 2, "h", 3/10, "p"⟩] [⟨5, 1⟩] rfl rfl).2
      (List.cons_ne_nil _ _) (by decide)

end Obsvec
